import Mathlib

/-
Shallow embedding of `categorize.py` (Product-Categorizer).

The Python program is a node-linked positional tree (`LinkedTree`, a concrete
subclass of the abstract `Tree`) plus a `ProductCategorizer` that builds a
tree from comma-separated category lines and renders preorder and postorder
traversals.

Modelling conventions:
 - Python's pointer-linked nodes become an arena: a tree owns a list of
   nodes, a node refers to its parent and children by arena index.  Nodes are
   only ever appended, so an index identifies one node for the tree's whole
   lifetime, which makes indices a faithful stand-in for object identity.
 - Each tree instance carries an identity token `tid : Nat`; distinct Python
   instances are distinct objects, modelled by distinct tokens.  A `Position`
   pairs the identity token of the tree that created it with a node index
   (Python pairs the container object with a node object).  A node reference
   "belongs to" a tree iff the token matches and the index is inside that
   tree's arena, so `validate`'s `p._container is not self` identity test is
   modelled by the token-and-range test.
 - Python mutation becomes state passing: mutators return the updated tree
   together with the result, queries are pure.  Raised exceptions become
   `Except Err`; mutators return the tree unchanged up to the point where the
   source raises.
 - The dynamic values that actually reach `_validate` in this program are
   `None`, `False` (the not-found sentinel of `find_child_by_value`) and
   genuine positions; `PVal` enumerates them.
 - Unbounded Python recursion / while-loops become fuel recursion; the fuel
   exceeding constructor `recursionLimit` models Python's RecursionError /
   nontermination and is never hit on trees the program actually builds.
 - Python's `str.strip()` and `str.split(',')` primitives are modelled
   directly over the character list of the string, following their documented
   semantics: `strip` removes the characters of Python's whitespace set from
   both ends, `split(',')` cuts at every comma, keeping empty segments
   (`''.split(',') == ['']`).
-/

namespace Categorize

/-- Python exceptions raised by the source, plus the fuel marker. -/
inductive Err where
  | typeError (msg : String)
  | valueError (msg : String)
  | recursionLimit
  deriving Repr, DecidableEq

/-- `LinkedTree._Node`: element, parent link, ordered children (the Python
children list starts out as `None` and is created on demand, hence
`Option (List Nat)`). -/
structure Node where
  element : String
  parent : Option Nat
  children : Option (List Nat)
  deriving Repr, DecidableEq

instance : Inhabited Node := ⟨⟨"", none, none⟩⟩

/-- `LinkedTree.Position`: the container (tree identity token) together with
the node (arena index, standing for node object identity). -/
structure Position where
  container : Nat
  node : Nat
  deriving Repr, DecidableEq, BEq

/-- The dynamic Python values that flow into position parameters in this
program: `None`, `False`, or a `Position`. -/
inductive PVal where
  | pnone
  | pfalse
  | ppos (p : Position)
  deriving Repr, DecidableEq

/-- `LinkedTree`: identity token, node arena, `_root` (as an arena index) and
`_size`. -/
structure LinkedTree where
  tid : Nat
  nodes : List Node
  rootIdx : Option Nat
  size : Nat
  deriving Repr, DecidableEq

/-- `LinkedTree.__init__`: `_root = None`, `_size = 0`. -/
def newTree (tid : Nat) : LinkedTree := ⟨tid, [], none, 0⟩

/-- Arena lookup (total, with a default never reached at validated indices). -/
def nodeAt (t : LinkedTree) (i : Nat) : Node := t.nodes.getD i default

/-- `LinkedTree.root()`: `_make_position(self._root)`. -/
def rootPosn (t : LinkedTree) : Option Position :=
  t.rootIdx.map (fun i => ⟨t.tid, i⟩)

/-- `Tree.is_empty`: `len(self) == 0`. -/
def is_empty (t : LinkedTree) : Bool := t.size == 0

/-- `LinkedTree._validate(p)`: `TypeError` unless `p` is a proper Position,
`ValueError` if it belongs to another container, `ValueError` if the node is
tombstoned (its parent link points to itself); otherwise the node. -/
def validate (t : LinkedTree) (p : PVal) : Except Err Nat :=
  match p with
  | .ppos q =>
    if q.container = t.tid ∧ q.node < t.nodes.length then
      if (nodeAt t q.node).parent = some q.node then
        .error (.valueError "p is no longer valid")
      else
        .ok q.node
    else
      .error (.valueError "p does not belong to this container")
  | _ => .error (.typeError "p must be proper Position type")

/-- Coercion of the `Option Position` results of `root()`/`parent()` into the
dynamic-value type. -/
def pvalOfOpt : Option Position → PVal
  | none => .pnone
  | some q => .ppos q

def validateO (t : LinkedTree) (p : Option Position) : Except Err Nat :=
  validate t (pvalOfOpt p)

/-- `LinkedTree.parent(p)`: validate, then `_make_position(node._parent)`. -/
def parent (t : LinkedTree) (p : PVal) : Except Err (Option Position) :=
  match validate t p with
  | .error e => .error e
  | .ok n => .ok ((nodeAt t n).parent.map (fun j => ⟨t.tid, j⟩))

def parentO (t : LinkedTree) (p : Option Position) : Except Err (Option Position) :=
  parent t (pvalOfOpt p)

/-- `LinkedTree.num_children(p)`. -/
def num_children (t : LinkedTree) (p : PVal) : Except Err Nat :=
  match validate t p with
  | .error e => .error e
  | .ok n =>
    match (nodeAt t n).children with
    | none => .ok 0
    | some cs => .ok cs.length

/-- `LinkedTree.children(p)`: validate, then yield a position per child in
insertion order (nothing when the children list is absent). -/
def children (t : LinkedTree) (p : PVal) : Except Err (List Position) :=
  match validate t p with
  | .error e => .error e
  | .ok n => .ok (((nodeAt t n).children.getD []).map (fun j => (⟨t.tid, j⟩ : Position)))

def childrenO (t : LinkedTree) (p : Option Position) : Except Err (List Position) :=
  children t (pvalOfOpt p)

/-- Python `==` on the optional positions compared in `is_root`:
`None == None` is true, a `Position` never equals `None`, and
`Position.__eq__` compares node identity. -/
def pyEqO : Option Position → Option Position → Bool
  | none, none => true
  | some a, some b => decide (a = b)
  | _, _ => false

/-- `Tree.is_root(p)`: `self.root() == p`. -/
def is_root (t : LinkedTree) (p : Option Position) : Bool :=
  pyEqO (rootPosn t) p

/-- `Tree.depth(p)`: 0 at the root, else `1 + depth(parent(p))`; fuel models
Python's recursion limit. -/
def depthAux (t : LinkedTree) : Nat → Option Position → Except Err Nat
  | 0, _ => .error .recursionLimit
  | fuel+1, p =>
    if is_root t p then .ok 0
    else
      match parentO t p with
      | .error e => .error e
      | .ok pp =>
        match depthAux t fuel pp with
        | .error e => .error e
        | .ok d => .ok (1 + d)

def depth (t : LinkedTree) (p : Option Position) : Except Err Nat :=
  depthAux t (t.nodes.length + 1) p

/-- Scanning loop of `find_child_by_value`: first child whose (validated)
element equals the value; `none` models the Python `False` not-found
sentinel. -/
def findAux (t : LinkedTree) (v : String) : List Position → Except Err (Option Position)
  | [] => .ok none
  | c :: rest =>
    match validate t (.ppos c) with
    | .error e => .error e
    | .ok n =>
      if (nodeAt t n).element = v then .ok (some c)
      else findAux t v rest

/-- `LinkedTree.find_child_by_value(p, value)`. -/
def find_child_by_value (t : LinkedTree) (p : PVal) (v : String) : Except Err (Option Position) :=
  match children t p with
  | .error e => .error e
  | .ok cs => findAux t v cs

/-- `LinkedTree._add_root(e)`: `ValueError('Root exists')` when a root is
present, else create the root node, set `_size = 1`, return its position. -/
def add_root (t : LinkedTree) (e : String) : LinkedTree × Except Err Position :=
  match t.rootIdx with
  | some _ => (t, .error (.valueError "Root exists"))
  | none =>
    ({ t with nodes := t.nodes ++ [⟨e, none, none⟩],
              rootIdx := some t.nodes.length,
              size := 1 },
     .ok ⟨t.tid, t.nodes.length⟩)

/-- The `if node._children is None: node._children = []` mutation at the top
of `_add_nonroot_node`. -/
def ensureChildren (t : LinkedTree) (n : Nat) : LinkedTree :=
  if (nodeAt t n).children = none then
    { t with nodes := t.nodes.set n { nodeAt t n with children := some [] } }
  else t

/-- The creation step of `_add_nonroot_node`: `_size += 1`, make a fresh node
whose parent is node `n` (its own children list starts as Python `None`),
and append it to `n`'s children list. -/
def appendChild (t : LinkedTree) (n : Nat) (e : String) : LinkedTree :=
  { t with
      size := t.size + 1,
      nodes := (t.nodes.set n
                  { nodeAt t n with
                      children := some (((nodeAt t n).children.getD []) ++ [t.nodes.length]) })
               ++ [Node.mk e (some n) none] }

/-- `LinkedTree._add_nonroot_node(p, e)`: validate `p`; materialise the
children list if absent; if `p` already has a child with element `e` the bare
`return` yields Python `None` (modelled `.ok none`); otherwise create the
child and return its position. -/
def add_nonroot_node (t : LinkedTree) (p : PVal) (e : String) :
    LinkedTree × Except Err (Option Position) :=
  match validate t p with
  | .error er => (t, .error er)
  | .ok n =>
    let t1 := ensureChildren t n
    match find_child_by_value t1 p e with
    | .error er => (t1, .error er)
    | .ok (some _) => (t1, .ok none)
    | .ok none => (appendChild t1 n e, .ok (some ⟨t.tid, t1.nodes.length⟩))

/-- `LinkedTree.add_node(e, p=None)`: dispatch to `_add_root` when `p` is
`None`, else `_add_nonroot_node`; the Python method returns `None`, so only
the mutated tree and a possible exception are observable. -/
def add_node (t : LinkedTree) (e : String) (p : PVal) : LinkedTree × Option Err :=
  match p with
  | .pnone =>
    match add_root t e with
    | (t', .ok _) => (t', none)
    | (t', .error er) => (t', some er)
  | _ =>
    match add_nonroot_node t p e with
    | (t', .ok _) => (t', none)
    | (t', .error er) => (t', some er)

/-- `depth(p) * '\t'`. -/
def tabs (d : Nat) : String := String.mk (List.replicate d '\t')

/-- Concatenation of a per-child generator run (`yield from` over the
children in order). -/
def seqStrings (f : Option Position → Except Err (List String)) :
    List Position → Except Err (List String)
  | [] => .ok []
  | c :: rest =>
    match f (some c) with
    | .error e => .error e
    | .ok r =>
      match seqStrings f rest with
      | .error e => .error e
      | .ok rs => .ok (r ++ rs)

/-- `LinkedTree._traverse_preorder(p)`: yield `depth(p)*'\t' +
_validate(p)._element + '\n'` (depth evaluated before the validation, as in
the source expression), then recurse into the children in order.  Defined by
`Nat.rec` on fuel so that closed runs reduce definitionally. -/
def traverse_preorder (t : LinkedTree) (fuel : Nat) : Option Position → Except Err (List String) :=
  Nat.rec (motive := fun _ => Option Position → Except Err (List String))
    (fun _ => .error .recursionLimit)
    (fun _ ih p =>
      match depth t p with
      | .error e => .error e
      | .ok d =>
        match validateO t p with
        | .error e => .error e
        | .ok n =>
          match childrenO t p with
          | .error e => .error e
          | .ok cs =>
            match seqStrings ih cs with
            | .error e => .error e
            | .ok body => .ok ((tabs d ++ (nodeAt t n).element ++ "\n") :: body))
    fuel

/-- `LinkedTree._traverse_postorder(p)`: recurse into the children first
(the children generator validates `p` when first advanced), then yield this
node's line. -/
def traverse_postorder (t : LinkedTree) (fuel : Nat) : Option Position → Except Err (List String) :=
  Nat.rec (motive := fun _ => Option Position → Except Err (List String))
    (fun _ => .error .recursionLimit)
    (fun _ ih p =>
      match childrenO t p with
      | .error e => .error e
      | .ok cs =>
        match seqStrings ih cs with
        | .error e => .error e
        | .ok body =>
          match depth t p with
          | .error e => .error e
          | .ok d =>
            match validateO t p with
            | .error e => .error e
            | .ok n => .ok (body ++ [tabs d ++ (nodeAt t n).element ++ "\n"]))
    fuel

/-- `LinkedTree.all_nodes(mode)`: preorder from `root()` when `mode == 'pre'`,
else postorder. -/
def all_nodes (t : LinkedTree) (mode : String) : Except Err (List String) :=
  if mode = "pre" then traverse_preorder t (t.nodes.length + 1) (rootPosn t)
  else traverse_postorder t (t.nodes.length + 1) (rootPosn t)

/-- `LinkedTree.get_path_to_root(p)` loop body: the list `[p]`, then while
`p` is not the root, `p = parent(p)` appended.  Fuel models the unbounded
while loop. -/
def pathAux (t : LinkedTree) : Nat → Option Position → Except Err (List (Option Position))
  | 0, _ => .error .recursionLimit
  | fuel+1, p =>
    if is_root t p then .ok [p]
    else
      match parentO t p with
      | .error e => .error e
      | .ok pp =>
        match pathAux t fuel pp with
        | .error e => .error e
        | .ok rest => .ok (p :: rest)

/-- `LinkedTree.get_path_to_root(p)`. -/
def get_path_to_root (t : LinkedTree) (p : Position) : Except Err (List (Option Position)) :=
  pathAux t (t.nodes.length + 1) (some p)

/-- Python's whitespace set for `str.strip()`. -/
def pyWS (c : Char) : Bool :=
  c == ' ' || c == '\t' || c == '\n' || c == '\r' || c == '\x0b' || c == '\x0c'

/-- `str.strip()`: drop whitespace from both ends. -/
def strip (s : String) : String :=
  String.mk (((s.data.dropWhile pyWS).reverse.dropWhile pyWS).reverse)

/-- `str.split(sep)` for a one-character separator: cut at every occurrence,
keeping empty segments; the split of the empty string is `[""]`. -/
def pySplit (sep : Char) : List Char → List (List Char)
  | [] => [[]]
  | c :: rest =>
    let r := pySplit sep rest
    if c = sep then [] :: r
    else
      match r with
      | [] => [[c]]
      | h :: tl => (c :: h) :: tl

/-- `line.split(',')`. -/
def splitComma (s : String) : List String :=
  (pySplit ',' s.data).map String.mk

/-- One iteration of the inner label loop of `ProductCategorizer.fill_tree`
(the `for node in nodes` body), over the state `(tree, parent-cursor)`:
if the label equals the root element, the cursor becomes `root()`; else if
the cursor has no child with the label, `add_node(label, cursor)` runs and
the cursor stays; else the cursor becomes the result of looking the label up
among the ROOT's children (a position, or the `False` sentinel). -/
def stepLabel (t : LinkedTree) (cursor : PVal) (s : String) :
    (LinkedTree × PVal) ⊕ (LinkedTree × Err) :=
  let v := strip s
  match validate t (pvalOfOpt (rootPosn t)) with
  | .error e => .inr (t, e)
  | .ok n =>
    if (nodeAt t n).element = v then
      .inl (t, pvalOfOpt (rootPosn t))
    else
      match find_child_by_value t cursor v with
      | .error e => .inr (t, e)
      | .ok none =>
        match add_node t v cursor with
        | (t', none) => .inl (t', cursor)
        | (t', some e) => .inr (t', e)
      | .ok (some _) =>
        match find_child_by_value t (pvalOfOpt (rootPosn t)) v with
        | .error e => .inr (t, e)
        | .ok none => .inl (t, .pfalse)
        | .ok (some q) => .inl (t, .ppos q)

/-- The label loop over one line's comma-split labels. -/
def fillLabels (t : LinkedTree) (cursor : PVal) : List String → (LinkedTree × PVal) ⊕ (LinkedTree × Err)
  | [] => .inl (t, cursor)
  | s :: rest =>
    match stepLabel t cursor s with
    | .inl (t', c') => fillLabels t' c' rest
    | .inr e => .inr e

/-- One line of `fill_tree`: on an empty tree, `add_node(line.strip())`
(whole line, no comma split); otherwise split on commas and run the label
loop. -/
def fillLine (t : LinkedTree) (cursor : PVal) (line : String) :
    (LinkedTree × PVal) ⊕ (LinkedTree × Err) :=
  if is_empty t then
    match add_node t (strip line) .pnone with
    | (t', none) => .inl (t', cursor)
    | (t', some e) => .inr (t', e)
  else
    fillLabels t cursor (splitComma line)

/-- The line loop of `fill_tree`; the cursor persists across lines. -/
def fillLines (t : LinkedTree) (cursor : PVal) : List String → (LinkedTree × PVal) ⊕ (LinkedTree × Err)
  | [] => .inl (t, cursor)
  | l :: rest =>
    match fillLine t cursor l with
    | .inl (t', c') => fillLines t' c' rest
    | .inr e => .inr e

/-- `ProductCategorizer.fill_tree`, over the file's line sequence: starts
from a fresh `LinkedTree` and the cursor local `parent = None`; an uncaught
exception aborts construction with the tree mutated so far. -/
def fill_tree (lines : List String) : (LinkedTree × PVal) ⊕ (LinkedTree × Err) :=
  fillLines (newTree 0) .pnone lines

/-- `ProductCategorizer.print_tree`: the pre-order lines then the post-order
lines (the two output artifacts). -/
def print_tree (t : LinkedTree) : Except Err (List String × List String) :=
  match all_nodes t "pre" with
  | .error e => .error e
  | .ok pre =>
    match all_nodes t "post" with
    | .error e => .error e
    | .ok post => .ok (pre, post)

/-- Trees producible by the program: a fresh `LinkedTree()` followed by any
sequence of the three mutating operations (the queries are pure). -/
inductive Reachable : LinkedTree → Prop where
  | new (tid : Nat) : Reachable (newTree tid)
  | root (t : LinkedTree) (e : String) : Reachable t → Reachable (add_root t e).1
  | nonroot (t : LinkedTree) (p : PVal) (e : String) :
      Reachable t → Reachable (add_nonroot_node t p e).1
  | node (t : LinkedTree) (e : String) (p : PVal) :
      Reachable t → Reachable (add_node t e p).1

/-- Structural well-formedness of the arena: `_size` counts the nodes, a
rootless tree has no nodes, the root is the first node created, exactly the
root lacks a parent link, and every parent was created before its child
(parent links strictly decrease), which in particular rules out tombstones
and cycles. -/
def WFd (t : LinkedTree) : Prop :=
  t.size = t.nodes.length ∧
  (t.rootIdx = none → t.nodes = []) ∧
  (∀ r, t.rootIdx = some r → r = 0 ∧ r < t.nodes.length) ∧
  (∀ i, i < t.nodes.length → ((nodeAt t i).parent = none ↔ t.rootIdx = some i)) ∧
  (∀ i j, i < t.nodes.length → (nodeAt t i).parent = some j → j < i)

/-- A traversal output line belonging to some node of the tree: the node's
element prefixed by one TAB per level of its depth, newline-terminated. -/
def lineIsNodeLine (t : LinkedTree) (s : String) : Prop :=
  ∃ i d nd, t.nodes.get? i = some nd ∧ depth t (some ⟨t.tid, i⟩) = .ok d ∧
    s = tabs d ++ nd.element ++ "\n"

/-- The children index list of node `i` (empty when the collection is
absent). -/
def childL (t : LinkedTree) (i : Nat) : List Nat := (nodeAt t i).children.getD []

/-- Children-structure well-formedness: every child entry points to a
later-created live node whose parent link points back, every non-root live
node is listed by its parent, and no children list repeats an entry. -/
def WFk (t : LinkedTree) : Prop :=
  (∀ i c, c ∈ childL t i → (nodeAt t c).parent = some i ∧ i < c ∧ c < t.nodes.length) ∧
  (∀ j i, j < t.nodes.length → (nodeAt t j).parent = some i → j ∈ childL t i) ∧
  (∀ i, (childL t i).Nodup)

/-- `j` lies in the subtree of `i`: following parent links upward from `j`
reaches `i`. -/
inductive DescP (t : LinkedTree) (i : Nat) : Nat → Prop where
  | refl : DescP t i i
  | up (j k : Nat) : (nodeAt t j).parent = some k → DescP t i k → DescP t i j

/-- Example tree with just the root `"A"` (`add_root` on a fresh tree). -/
def exT1 : LinkedTree := (add_root (newTree 0) "A").1

/-- Example tree: root `"A"` with one child `"B"`. -/
def exAB : LinkedTree := (add_nonroot_node exT1 (.ppos ⟨0, 0⟩) "B").1

/-- Example tree of the spec's traversal test: root `"A"`, root children
`["B", "C"]` added in that order. -/
def exABC : LinkedTree := (add_nonroot_node exAB (.ppos ⟨0, 0⟩) "C").1

section ListLemmas

variable {α : Type} (d a : α)

lemma getD_append_lt : ∀ (l l' : List α) (i : Nat), i < l.length →
    (l ++ l').getD i d = l.getD i d := by
  intro l
  induction l with
  | nil => intro l' i hi; simp at hi
  | cons x tl ih =>
    intro l' i hi
    cases i with
    | zero => rfl
    | succ j => simpa using ih l' j (by simpa using hi)

lemma getD_append_len : ∀ (l : List α), (l ++ [a]).getD l.length d = a := by
  intro l
  induction l with
  | nil => rfl
  | cons x tl ih => exact ih

lemma getD_set_self : ∀ (l : List α) (i : Nat), i < l.length →
    (l.set i a).getD i d = a := by
  intro l
  induction l with
  | nil => intro i hi; simp at hi
  | cons x tl ih =>
    intro i hi
    cases i with
    | zero => rfl
    | succ j => simpa using ih j (by simpa using hi)

lemma getD_set_ne : ∀ (l : List α) (i j : Nat), i ≠ j →
    (l.set i a).getD j d = l.getD j d := by
  intro l
  induction l with
  | nil => intro i j _; simp
  | cons x tl ih =>
    intro i j hij
    cases i with
    | zero =>
      cases j with
      | zero => exact absurd rfl hij
      | succ j' => simp
    | succ i' =>
      cases j with
      | zero => simp
      | succ j' => simpa using ih i' j' (by omega)

lemma getD_ge : ∀ (l : List α) (i : Nat), l.length ≤ i → l.getD i d = d := by
  intro l
  induction l with
  | nil => intro i _; cases i <;> rfl
  | cons x tl ih =>
    intro i hi
    cases i with
    | zero => simp at hi
    | succ j => simpa using ih j (by simpa using hi)

lemma get?_eq_getD : ∀ (l : List α) (i : Nat), i < l.length →
    l.get? i = some (l.getD i d) := by
  intro l
  induction l with
  | nil => intro i hi; simp at hi
  | cons x tl ih =>
    intro i hi
    cases i with
    | zero => rfl
    | succ j => simpa using ih j (by simpa using hi)

lemma get?_some_lt {l : List α} {i : Nat} {x : α} (h : l.get? i = some x) :
    i < l.length ∧ l.getD i d = x := by
  induction l generalizing i with
  | nil => simp at h
  | cons y tl ih =>
    cases i with
    | zero =>
      simp at h
      simp [h]
    | succ j =>
      have := ih (by simpa using h)
      simpa using this

end ListLemmas

section ValidateLemmas

lemma validate_ppos_ok {t : LinkedTree} {q : Position}
    (h1 : q.container = t.tid) (h2 : q.node < t.nodes.length)
    (h3 : (nodeAt t q.node).parent ≠ some q.node) :
    validate t (.ppos q) = .ok q.node := by
  simp [validate, h1, h2, h3]

lemma validate_ok_elim {t : LinkedTree} {p : PVal} {n : Nat}
    (h : validate t p = .ok n) :
    p = .ppos ⟨t.tid, n⟩ ∧ n < t.nodes.length ∧ (nodeAt t n).parent ≠ some n := by
  cases p with
  | pnone => simp [validate] at h
  | pfalse => simp [validate] at h
  | ppos q =>
    by_cases hc : q.container = t.tid ∧ q.node < t.nodes.length
    · by_cases ht : (nodeAt t q.node).parent = some q.node
      · simp [validate, hc, ht] at h
      · simp [validate, hc, ht] at h
        subst h
        exact ⟨by cases q; simp_all, hc.2, ht⟩
    · simp [validate, hc] at h

end ValidateLemmas

section WFdLemmas

lemma wfd_new (tid : Nat) : WFd (newTree tid) := by
  refine ⟨rfl, fun _ => rfl, ?_, ?_, ?_⟩ <;> simp [newTree]

/-- Rewriting only the children collection of an existing node keeps the
arena well-formed. -/
lemma wfd_setChildren {t : LinkedTree} (hw : WFd t) (n : Nat) (c : Option (List Nat))
    (hn : n < t.nodes.length) :
    WFd { t with nodes := t.nodes.set n { nodeAt t n with children := c } } := by
  obtain ⟨h1, h2, h3, h4, h5⟩ := hw
  have hlen : (t.nodes.set n { nodeAt t n with children := c }).length = t.nodes.length :=
    List.length_set t.nodes n _
  have hSelf : nodeAt { t with nodes := t.nodes.set n { nodeAt t n with children := c } } n =
      { nodeAt t n with children := c } :=
    getD_set_self _ _ _ _ hn
  have hOther : ∀ i, i ≠ n →
      nodeAt { t with nodes := t.nodes.set n { nodeAt t n with children := c } } i =
        nodeAt t i := by
    intro i hin
    exact getD_set_ne _ _ _ _ _ (Ne.symm hin)
  have hParent : ∀ i,
      (nodeAt { t with nodes := t.nodes.set n { nodeAt t n with children := c } } i).parent =
        (nodeAt t i).parent := by
    intro i
    by_cases hin : i = n
    · subst hin
      rw [hSelf]
    · rw [hOther i hin]
  refine ⟨?_, ?_, ?_, ?_, ?_⟩
  · show t.size = (t.nodes.set n _).length
    rw [hlen]; exact h1
  · intro hr
    show t.nodes.set n _ = []
    rw [h2 hr]; rfl
  · intro r hr
    have := h3 r hr
    show r = 0 ∧ r < (t.nodes.set n _).length
    rw [hlen]; exact this
  · intro i hi
    rw [hlen] at hi
    rw [hParent i]
    exact h4 i hi
  · intro i j hi hp
    rw [hlen] at hi
    rw [hParent i] at hp
    exact h5 i j hi hp

/-- Appending a fresh child of node `n` (while updating `n`'s children list)
keeps the arena well-formed. -/
lemma wfd_appendChild {t : LinkedTree} (hw : WFd t) (n : Nat) (e : String)
    (c : Option (List Nat)) (hn : n < t.nodes.length) :
    WFd { t with
            size := t.size + 1,
            nodes := (t.nodes.set n { nodeAt t n with children := c })
                     ++ [Node.mk e (some n) none] } := by
  obtain ⟨h1, h2, h3, h4, h5⟩ := hw
  have hsetlen : (t.nodes.set n { nodeAt t n with children := c }).length = t.nodes.length :=
    List.length_set t.nodes n _
  have hlen : ((t.nodes.set n { nodeAt t n with children := c })
      ++ [Node.mk e (some n) none]).length = t.nodes.length + 1 := by
    rw [List.length_append, hsetlen]; rfl
  have hOld : ∀ i, i < t.nodes.length →
      nodeAt { t with
                 size := t.size + 1,
                 nodes := (t.nodes.set n { nodeAt t n with children := c })
                          ++ [Node.mk e (some n) none] } i =
        (if i = n then { nodeAt t n with children := c } else nodeAt t i) := by
    intro i hi
    have hstep : nodeAt { t with
                   size := t.size + 1,
                   nodes := (t.nodes.set n { nodeAt t n with children := c })
                            ++ [Node.mk e (some n) none] } i =
        (t.nodes.set n { nodeAt t n with children := c }).getD i default := by
      exact getD_append_lt _ _ _ _ (by rw [hsetlen]; exact hi)
    rw [hstep]
    by_cases hin : i = n
    · subst hin
      rw [if_pos rfl]
      exact getD_set_self _ _ _ _ hn
    · rw [if_neg hin]
      exact getD_set_ne _ _ _ _ _ (Ne.symm hin)
  have hNew : nodeAt { t with
                 size := t.size + 1,
                 nodes := (t.nodes.set n { nodeAt t n with children := c })
                          ++ [Node.mk e (some n) none] } t.nodes.length =
      Node.mk e (some n) none := by
    have := getD_append_len (default : Node) (Node.mk e (some n) none)
      (t.nodes.set n { nodeAt t n with children := c })
    rw [hsetlen] at this
    exact this
  have hParentOld : ∀ i, i < t.nodes.length →
      (nodeAt { t with
                 size := t.size + 1,
                 nodes := (t.nodes.set n { nodeAt t n with children := c })
                          ++ [Node.mk e (some n) none] } i).parent =
        (nodeAt t i).parent := by
    intro i hi
    rw [hOld i hi]
    by_cases hin : i = n
    · subst hin; rw [if_pos rfl]
    · rw [if_neg hin]
  have hrootSome : ∃ r, t.rootIdx = some r := by
    cases hh : t.rootIdx with
    | none =>
      rw [h2 hh] at hn
      exact absurd hn (by simp)
    | some r => exact ⟨r, rfl⟩
  obtain ⟨r, hr⟩ := hrootSome
  refine ⟨?_, ?_, ?_, ?_, ?_⟩
  · show t.size + 1 = _
    rw [hlen, h1]
  · intro hh
    rw [hh] at hr
    cases hr
  · intro r' hr'
    have hr'' : r' = r := by
      rw [hr] at hr'
      cases hr'
      rfl
    subst hr''
    have := h3 r' hr
    refine ⟨this.1, ?_⟩
    rw [hlen]
    omega
  · intro i hi
    rw [hlen] at hi
    by_cases hend : i = t.nodes.length
    · subst hend
      rw [hNew]
      constructor
      · intro hcon
        cases hcon
      · intro hcon
        have := (h3 _ hcon).2
        omega
    · have hi' : i < t.nodes.length := by omega
      rw [hParentOld i hi']
      exact h4 i hi'
  · intro i j hi hp
    rw [hlen] at hi
    by_cases hend : i = t.nodes.length
    · subst hend
      rw [hNew] at hp
      cases hp
      omega
    · have hi' : i < t.nodes.length := by omega
      rw [hParentOld i hi'] at hp
      exact h5 i j hi' hp

lemma wfd_add_root {t : LinkedTree} (hw : WFd t) (e : String) :
    WFd (add_root t e).1 := by
  obtain ⟨h1, h2, h3, h4, h5⟩ := hw
  cases hr : t.rootIdx with
  | some r => simpa [add_root, hr] using ⟨h1, h2, h3, h4, h5⟩
  | none =>
    have hnil := h2 hr
    have heq : (add_root t e).1 =
        { t with nodes := [Node.mk e none none], rootIdx := some 0, size := 1 } := by
      simp [add_root, hr, hnil]
    rw [heq]
    refine ⟨rfl, ?_, ?_, ?_, ?_⟩
    · intro hh
      cases hh
    · intro r hrr
      cases hrr
      exact ⟨rfl, by simp⟩
    · intro i hi
      have hi0 : i = 0 := by simpa using hi
      subst hi0
      simp [nodeAt]
    · intro i j hi hp
      have hi0 : i = 0 := by simpa using hi
      subst hi0
      simp [nodeAt] at hp

lemma add_node_pnone_fst (t : LinkedTree) (e : String) :
    (add_node t e .pnone).1 = (add_root t e).1 := by
  unfold add_node
  cases add_root t e with
  | mk t' r => cases r <;> rfl

lemma add_node_pfalse_fst (t : LinkedTree) (e : String) :
    (add_node t e .pfalse).1 = (add_nonroot_node t .pfalse e).1 := by
  unfold add_node
  cases add_nonroot_node t .pfalse e with
  | mk t' r => cases r <;> rfl

lemma add_node_ppos_fst (t : LinkedTree) (e : String) (q : Position) :
    (add_node t e (.ppos q)).1 = (add_nonroot_node t (.ppos q) e).1 := by
  unfold add_node
  cases add_nonroot_node t (.ppos q) e with
  | mk t' r => cases r <;> rfl

lemma ensureChildren_length (t : LinkedTree) (n : Nat) :
    (ensureChildren t n).nodes.length = t.nodes.length := by
  unfold ensureChildren
  split
  · exact List.length_set t.nodes n _
  · rfl

lemma ensureChildren_tid (t : LinkedTree) (n : Nat) : (ensureChildren t n).tid = t.tid := by
  unfold ensureChildren; split <;> rfl

lemma ensureChildren_rootIdx (t : LinkedTree) (n : Nat) :
    (ensureChildren t n).rootIdx = t.rootIdx := by
  unfold ensureChildren; split <;> rfl

lemma ensureChildren_size (t : LinkedTree) (n : Nat) : (ensureChildren t n).size = t.size := by
  unfold ensureChildren; split <;> rfl

lemma nodeAt_ensureChildren_ne {t : LinkedTree} {n i : Nat} (hin : i ≠ n) :
    nodeAt (ensureChildren t n) i = nodeAt t i := by
  unfold ensureChildren
  split
  · exact getD_set_ne _ _ _ _ _ (Ne.symm hin)
  · rfl

lemma nodeAt_ensureChildren_self {t : LinkedTree} {n : Nat} (hn : n < t.nodes.length) :
    nodeAt (ensureChildren t n) n =
      { nodeAt t n with children := some ((nodeAt t n).children.getD []) } := by
  unfold ensureChildren
  by_cases hc : (nodeAt t n).children = none
  · rw [if_pos hc, hc]
    exact getD_set_self _ _ _ _ hn
  · rw [if_neg hc]
    obtain ⟨cs, hcs⟩ : ∃ cs, (nodeAt t n).children = some cs := by
      cases hh : (nodeAt t n).children with
      | none => exact absurd hh hc
      | some cs => exact ⟨cs, rfl⟩
    rw [hcs]
    cases hτ : nodeAt t n with
    | mk el pa ch =>
      rw [hτ] at hcs
      simp at hcs
      simp [hcs]

lemma wfd_ensureChildren {t : LinkedTree} (hw : WFd t) {n : Nat}
    (hn : n < t.nodes.length) : WFd (ensureChildren t n) := by
  unfold ensureChildren
  split
  · exact wfd_setChildren hw n (some []) hn
  · exact hw

lemma appendChild_tid (t : LinkedTree) (n : Nat) (e : String) :
    (appendChild t n e).tid = t.tid := rfl

lemma appendChild_rootIdx (t : LinkedTree) (n : Nat) (e : String) :
    (appendChild t n e).rootIdx = t.rootIdx := rfl

lemma appendChild_size (t : LinkedTree) (n : Nat) (e : String) :
    (appendChild t n e).size = t.size + 1 := rfl

lemma appendChild_length (t : LinkedTree) (n : Nat) (e : String) :
    (appendChild t n e).nodes.length = t.nodes.length + 1 := by
  show ((t.nodes.set n _) ++ _).length = _
  rw [List.length_append, List.length_set]
  rfl

lemma nodeAt_appendChild_new (t : LinkedTree) (n : Nat) (e : String) :
    nodeAt (appendChild t n e) t.nodes.length = Node.mk e (some n) none := by
  show ((t.nodes.set n _) ++ [Node.mk e (some n) none]).getD t.nodes.length default = _
  have := getD_append_len (default : Node) (Node.mk e (some n) none)
    (t.nodes.set n { nodeAt t n with
        children := some (((nodeAt t n).children.getD []) ++ [t.nodes.length]) })
  rw [List.length_set] at this
  exact this

lemma nodeAt_appendChild_self {t : LinkedTree} {n : Nat} (e : String)
    (hn : n < t.nodes.length) :
    nodeAt (appendChild t n e) n =
      { nodeAt t n with
          children := some (((nodeAt t n).children.getD []) ++ [t.nodes.length]) } := by
  show ((t.nodes.set n _) ++ _).getD n default = _
  rw [getD_append_lt _ _ _ _ (by rw [List.length_set]; exact hn)]
  exact getD_set_self _ _ _ _ hn

lemma nodeAt_appendChild_old {t : LinkedTree} {n i : Nat} (e : String)
    (hin : i ≠ n) (hi : i < t.nodes.length) :
    nodeAt (appendChild t n e) i = nodeAt t i := by
  show ((t.nodes.set n _) ++ _).getD i default = _
  rw [getD_append_lt _ _ _ _ (by rw [List.length_set]; exact hi)]
  exact getD_set_ne _ _ _ _ _ (Ne.symm hin)

lemma wfd_appendChild' {t : LinkedTree} (hw : WFd t) {n : Nat}
    (hn : n < t.nodes.length) (e : String) : WFd (appendChild t n e) := by
  unfold appendChild
  exact wfd_appendChild hw n e _ hn

lemma wfd_add_nonroot {t : LinkedTree} (hw : WFd t) (p : PVal) (e : String) :
    WFd (add_nonroot_node t p e).1 := by
  cases hv : validate t p with
  | error er => simpa [add_nonroot_node, hv] using hw
  | ok n =>
    obtain ⟨hp, hn, hnt⟩ := validate_ok_elim hv
    have hw1 : WFd (ensureChildren t n) := wfd_ensureChildren hw hn
    have hn1 : n < (ensureChildren t n).nodes.length := by
      rw [ensureChildren_length]; exact hn
    cases hf : find_child_by_value (ensureChildren t n) p e with
    | error er => simpa [add_nonroot_node, hv, hf] using hw1
    | ok res =>
      cases res with
      | some q => simpa [add_nonroot_node, hv, hf] using hw1
      | none =>
        have := wfd_appendChild' hw1 hn1 e
        simpa [add_nonroot_node, hv, hf] using this

lemma wfd_add_node {t : LinkedTree} (hw : WFd t) (e : String) (p : PVal) :
    WFd (add_node t e p).1 := by
  cases p with
  | pnone => rw [add_node_pnone_fst]; exact wfd_add_root hw e
  | pfalse => rw [add_node_pfalse_fst]; exact wfd_add_nonroot hw .pfalse e
  | ppos q => rw [add_node_ppos_fst]; exact wfd_add_nonroot hw (.ppos q) e

lemma nodeAt_ensureChildren_parent {t : LinkedTree} {n : Nat} (hn : n < t.nodes.length)
    (i : Nat) : (nodeAt (ensureChildren t n) i).parent = (nodeAt t i).parent := by
  by_cases hin : i = n
  · subst hin
    rw [nodeAt_ensureChildren_self hn]
  · rw [nodeAt_ensureChildren_ne hin]

lemma nodeAt_ensureChildren_element {t : LinkedTree} {n : Nat} (hn : n < t.nodes.length)
    (i : Nat) : (nodeAt (ensureChildren t n) i).element = (nodeAt t i).element := by
  by_cases hin : i = n
  · subst hin
    rw [nodeAt_ensureChildren_self hn]
  · rw [nodeAt_ensureChildren_ne hin]

lemma nodeAt_appendChild_parent {t : LinkedTree} {n : Nat} (e : String)
    {i : Nat} (hi : i < t.nodes.length) :
    (nodeAt (appendChild t n e) i).parent = (nodeAt t i).parent := by
  by_cases hin : i = n
  · subst hin
    rw [nodeAt_appendChild_self e hi]
  · rw [nodeAt_appendChild_old e hin hi]

lemma nodeAt_appendChild_element {t : LinkedTree} {n : Nat} (e : String)
    {i : Nat} (hi : i < t.nodes.length) :
    (nodeAt (appendChild t n e) i).element = (nodeAt t i).element := by
  by_cases hin : i = n
  · subst hin
    rw [nodeAt_appendChild_self e hi]
  · rw [nodeAt_appendChild_old e hin hi]

theorem reachable_wfd {t : LinkedTree} (h : Reachable t) : WFd t := by
  induction h with
  | new tid => exact wfd_new tid
  | root t e _ ih => exact wfd_add_root ih e
  | nonroot t p e _ ih => exact wfd_add_nonroot ih p e
  | node t e p _ ih => exact wfd_add_node ih e p

end WFdLemmas

section ShapeLemmas

lemma anr_validate_err {t : LinkedTree} {p : PVal} {e : String} {er : Err}
    (hv : validate t p = .error er) :
    add_nonroot_node t p e = (t, .error er) := by
  simp [add_nonroot_node, hv]

lemma anr_find_err {t : LinkedTree} {p : PVal} {e : String} {n : Nat} {er : Err}
    (hv : validate t p = .ok n)
    (hf : find_child_by_value (ensureChildren t n) p e = .error er) :
    add_nonroot_node t p e = (ensureChildren t n, .error er) := by
  simp [add_nonroot_node, hv, hf]

lemma anr_found {t : LinkedTree} {p : PVal} {e : String} {n : Nat} {q : Position}
    (hv : validate t p = .ok n)
    (hf : find_child_by_value (ensureChildren t n) p e = .ok (some q)) :
    add_nonroot_node t p e = (ensureChildren t n, .ok none) := by
  simp [add_nonroot_node, hv, hf]

lemma anr_notfound {t : LinkedTree} {p : PVal} {e : String} {n : Nat}
    (hv : validate t p = .ok n)
    (hf : find_child_by_value (ensureChildren t n) p e = .ok none) :
    add_nonroot_node t p e =
      (appendChild (ensureChildren t n) n e,
       .ok (some ⟨t.tid, (ensureChildren t n).nodes.length⟩)) := by
  simp [add_nonroot_node, hv, hf]

lemma ensureChildren_noop {t : LinkedTree} {n : Nat}
    (h : (nodeAt t n).children ≠ none) : ensureChildren t n = t := by
  unfold ensureChildren
  rw [if_neg h]

lemma children_ok_of_validate {t : LinkedTree} {p : PVal} {n : Nat}
    (hv : validate t p = .ok n) :
    children t p =
      .ok (((nodeAt t n).children.getD []).map (fun j => (⟨t.tid, j⟩ : Position))) := by
  simp [children, hv]

lemma find_eq_findAux {t : LinkedTree} {p : PVal} {n : Nat} (v : String)
    (hv : validate t p = .ok n) :
    find_child_by_value t p v =
      findAux t v (((nodeAt t n).children.getD []).map (fun j => (⟨t.tid, j⟩ : Position))) := by
  simp [find_child_by_value, children, hv]

lemma findAux_ok_none_elim {t : LinkedTree} {v : String} :
    ∀ {cs : List Position}, findAux t v cs = .ok none →
      ∀ c ∈ cs, validate t (.ppos c) = .ok c.node ∧ (nodeAt t c.node).element ≠ v := by
  intro cs
  induction cs with
  | nil =>
    intro _ c hc
    cases hc
  | cons c0 rest ih =>
    intro h c hc
    cases hvc : validate t (.ppos c0) with
    | error er => rw [findAux, hvc] at h; cases h
    | ok n =>
      have hn0 : n = c0.node := by
        have := validate_ok_elim hvc
        have hq := this.1
        cases hq
        rfl
      by_cases he : (nodeAt t n).element = v
      · simp only [findAux, hvc] at h
        rw [if_pos he] at h
        cases h
      · simp only [findAux, hvc] at h
        rw [if_neg he] at h
        cases hc with
        | head =>
          subst hn0
          exact ⟨hvc, he⟩
        | tail _ hmem => exact ih h c hmem

lemma findAux_skip {t : LinkedTree} {v : String} :
    ∀ {cs : List Position},
      (∀ c ∈ cs, validate t (.ppos c) = .ok c.node ∧ (nodeAt t c.node).element ≠ v) →
      ∀ rest, findAux t v (cs ++ rest) = findAux t v rest := by
  intro cs
  induction cs with
  | nil => intro _ rest; rfl
  | cons c0 cs' ih =>
    intro h rest
    have h0 := h c0 (List.mem_cons_self c0 cs')
    show findAux t v (c0 :: (cs' ++ rest)) = _
    simp only [findAux, h0.1]
    rw [if_neg h0.2]
    exact ih (fun c hc => h c (List.mem_cons_of_mem c0 hc)) rest

lemma findAux_single_found {t : LinkedTree} {v : String} {c : Position}
    (hv : validate t (.ppos c) = .ok c.node) (he : (nodeAt t c.node).element = v) :
    findAux t v [c] = .ok (some c) := by
  simp only [findAux, hv]
  rw [if_pos he]

end ShapeLemmas

section PathDepth

lemma is_root_posn_true {t : LinkedTree} {r : Nat} (hr : t.rootIdx = some r) :
    is_root t (some ⟨t.tid, r⟩) = true := by
  unfold is_root rootPosn
  rw [hr]
  show pyEqO (some ⟨t.tid, r⟩) (some ⟨t.tid, r⟩) = true
  unfold pyEqO
  simp

lemma is_root_posn_false {t : LinkedTree} {r : Nat} (hr : t.rootIdx = some r)
    {i : Nat} (hir : i ≠ r) : is_root t (some ⟨t.tid, i⟩) = false := by
  unfold is_root rootPosn
  rw [hr]
  show pyEqO (some ⟨t.tid, r⟩) (some ⟨t.tid, i⟩) = false
  unfold pyEqO
  simp
  intro hcon
  exact absurd hcon.symm hir

lemma wfd_root_some {t : LinkedTree} (hw : WFd t) {i : Nat} (hi : i < t.nodes.length) :
    ∃ r, t.rootIdx = some r := by
  obtain ⟨h1, h2, h3, h4, h5⟩ := hw
  cases hh : t.rootIdx with
  | none =>
    rw [h2 hh] at hi
    exact absurd hi (by simp)
  | some r => exact ⟨r, rfl⟩

/-- Joint specification of `get_path_to_root`'s loop and `depth`'s recursion
on a well-formed arena: starting from any live node, both terminate, the path
starts at the node, ends at the root, follows parent links, and has exactly
`depth + 1` entries. -/
lemma path_depth_spec (t : LinkedTree) (hw : WFd t) :
    ∀ i, i < t.nodes.length →
      ∀ fuel, i < fuel → ∀ fuel', i < fuel' →
      ∃ l d, pathAux t fuel (some ⟨t.tid, i⟩) = .ok l ∧
             depthAux t fuel' (some ⟨t.tid, i⟩) = .ok d ∧
             l.length = d + 1 ∧
             l.head? = some (some ⟨t.tid, i⟩) ∧
             l.getLast? = some (rootPosn t) ∧
             List.Chain' (fun a b => parentO t a = .ok b) l := by
  intro i
  induction i using Nat.strong_induction_on with
  | _ i ih =>
    intro hi fuel hfu fuel' hfu'
    obtain ⟨r, hr⟩ := wfd_root_some hw hi
    obtain ⟨h1, h2, h3, h4, h5⟩ := hw
    cases fuel with
    | zero => omega
    | succ f =>
      cases fuel' with
      | zero => omega
      | succ f' =>
        by_cases hir : i = r
        · subst hir
          have hroot : is_root t (some ⟨t.tid, i⟩) = true := is_root_posn_true hr
          refine ⟨[some ⟨t.tid, i⟩], 0, ?_, ?_, rfl, rfl, ?_, ?_⟩
          · simp [pathAux, hroot]
          · simp [depthAux, hroot]
          · show some (some ⟨t.tid, i⟩) = some (rootPosn t)
            unfold rootPosn
            rw [hr]
            rfl
          · exact List.chain'_singleton _
        · have hpn : (nodeAt t i).parent ≠ none := by
            intro hcon
            have := (h4 i hi).mp hcon
            rw [hr] at this
            cases this
            exact hir rfl
          obtain ⟨j, hj⟩ : ∃ j, (nodeAt t i).parent = some j := by
            cases hh : (nodeAt t i).parent with
            | none => exact absurd hh hpn
            | some j => exact ⟨j, rfl⟩
          have hji : j < i := h5 i j hi hj
          have hvi : validate t (.ppos ⟨t.tid, i⟩) = .ok i := by
            have hnt : (nodeAt t i).parent ≠ some i := by
              rw [hj]
              intro hcon
              cases hcon
              omega
            exact validate_ppos_ok rfl hi hnt
          have hpar : parentO t (some ⟨t.tid, i⟩) = .ok (some ⟨t.tid, j⟩) := by
            show parent t (.ppos ⟨t.tid, i⟩) = _
            simp [parent, hvi, hj]
          have hroot : is_root t (some ⟨t.tid, i⟩) = false := is_root_posn_false hr hir
          obtain ⟨l', d', hp', hd', hlen', hhead', hlast', hchain'⟩ :=
            ih j hji (by omega) f (by omega) f' (by omega)
          refine ⟨some ⟨t.tid, i⟩ :: l', 1 + d', ?_, ?_, ?_, rfl, ?_, ?_⟩
          · simp [pathAux, hroot, hpar, hp']
          · simp [depthAux, hroot, hpar, hd']
          · simp [hlen']
            omega
          · cases l' with
            | nil => cases hhead'
            | cons x l'' =>
              rw [List.getLast?_cons_cons]
              exact hlast'
          · cases l' with
            | nil => cases hhead'
            | cons x l'' =>
              have hx : x = some ⟨t.tid, j⟩ := by
                have : (x :: l'').head? = some x := rfl
                rw [this] at hhead'
                cases hhead'
                rfl
              subst hx
              exact List.chain'_cons.mpr ⟨hpar, hchain'⟩

end PathDepth

section TraversalLemmas

lemma pvalOfOpt_ppos {p : Option Position} {q : Position}
    (h : pvalOfOpt p = .ppos q) : p = some q := by
  cases p with
  | none => cases h
  | some q' =>
    cases h
    rfl

lemma traverse_preorder_zero (t : LinkedTree) (p : Option Position) :
    traverse_preorder t 0 p = .error .recursionLimit := rfl

lemma traverse_preorder_succ (t : LinkedTree) (f : Nat) (p : Option Position) :
    traverse_preorder t (f+1) p =
      (match depth t p with
       | .error e => .error e
       | .ok d =>
         match validateO t p with
         | .error e => .error e
         | .ok n =>
           match childrenO t p with
           | .error e => .error e
           | .ok cs =>
             match seqStrings (traverse_preorder t f) cs with
             | .error e => .error e
             | .ok body => .ok ((tabs d ++ (nodeAt t n).element ++ "\n") :: body)) := rfl

lemma traverse_postorder_zero (t : LinkedTree) (p : Option Position) :
    traverse_postorder t 0 p = .error .recursionLimit := rfl

lemma traverse_postorder_succ (t : LinkedTree) (f : Nat) (p : Option Position) :
    traverse_postorder t (f+1) p =
      (match childrenO t p with
       | .error e => .error e
       | .ok cs =>
         match seqStrings (traverse_postorder t f) cs with
         | .error e => .error e
         | .ok body =>
           match depth t p with
           | .error e => .error e
           | .ok d =>
             match validateO t p with
             | .error e => .error e
             | .ok n => .ok (body ++ [tabs d ++ (nodeAt t n).element ++ "\n"])) := rfl

lemma seqStrings_ok_mem {f : Option Position → Except Err (List String)} :
    ∀ {cs : List Position} {body : List String}, seqStrings f cs = .ok body →
      ∀ s ∈ body, ∃ c ∈ cs, ∃ r, f (some c) = .ok r ∧ s ∈ r := by
  intro cs
  induction cs with
  | nil =>
    intro body h s hs
    cases h
    cases hs
  | cons c0 rest ih =>
    intro body h s hs
    rw [seqStrings] at h
    cases hf : f (some c0) with
    | error e => rw [hf] at h; cases h
    | ok r0 =>
      rw [hf] at h
      cases hrest : seqStrings f rest with
      | error e => rw [hrest] at h; cases h
      | ok rs =>
        rw [hrest] at h
        cases h
        rcases List.mem_append.mp hs with hs0 | hs1
        · exact ⟨c0, List.mem_cons_self c0 rest, r0, hf, hs0⟩
        · obtain ⟨c, hc, r, hfr, hsr⟩ := ih hrest s hs1
          exact ⟨c, List.mem_cons_of_mem c0 hc, r, hfr, hsr⟩

/-- The single node line emitted at a validated position is a node line of
the tree. -/
lemma node_line_form {t : LinkedTree} {p : Option Position} {n d : Nat}
    (hv : validateO t p = .ok n) (hd : depth t p = .ok d) :
    lineIsNodeLine t (tabs d ++ (nodeAt t n).element ++ "\n") := by
  obtain ⟨hp, hn, _⟩ := validate_ok_elim hv
  have hps : p = some ⟨t.tid, n⟩ := pvalOfOpt_ppos hp
  refine ⟨n, d, nodeAt t n, ?_, ?_, rfl⟩
  · exact get?_eq_getD default t.nodes n hn
  · rw [← hps]
    exact hd

lemma preorder_lines_form (t : LinkedTree) :
    ∀ fuel (p : Option Position) l, traverse_preorder t fuel p = .ok l →
      ∀ s ∈ l, lineIsNodeLine t s := by
  intro fuel
  induction fuel with
  | zero =>
    intro p l h
    rw [traverse_preorder_zero] at h
    cases h
  | succ f ihf =>
    intro p l h
    rw [traverse_preorder_succ] at h
    cases hd : depth t p with
    | error e => simp only [hd] at h; cases h
    | ok d =>
      simp only [hd] at h
      cases hv : validateO t p with
      | error e => simp only [hv] at h; cases h
      | ok n =>
        simp only [hv] at h
        cases hc : childrenO t p with
        | error e => simp only [hc] at h; cases h
        | ok cs =>
          simp only [hc] at h
          cases hb : seqStrings (traverse_preorder t f) cs with
          | error e => simp only [hb] at h; cases h
          | ok body =>
            simp only [hb] at h
            cases h
            intro s hs
            cases hs with
            | head => exact node_line_form hv hd
            | tail _ hmem =>
              obtain ⟨c, _, r, hfr, hsr⟩ := seqStrings_ok_mem hb s hmem
              exact ihf (some c) r hfr s hsr

lemma postorder_lines_form (t : LinkedTree) :
    ∀ fuel (p : Option Position) l, traverse_postorder t fuel p = .ok l →
      ∀ s ∈ l, lineIsNodeLine t s := by
  intro fuel
  induction fuel with
  | zero =>
    intro p l h
    rw [traverse_postorder_zero] at h
    cases h
  | succ f ihf =>
    intro p l h
    rw [traverse_postorder_succ] at h
    cases hc : childrenO t p with
    | error e => simp only [hc] at h; cases h
    | ok cs =>
      simp only [hc] at h
      cases hb : seqStrings (traverse_postorder t f) cs with
      | error e => simp only [hb] at h; cases h
      | ok body =>
        simp only [hb] at h
        cases hd : depth t p with
        | error e => simp only [hd] at h; cases h
        | ok d =>
          simp only [hd] at h
          cases hv : validateO t p with
          | error e => simp only [hv] at h; cases h
          | ok n =>
            simp only [hv] at h
            cases h
            intro s hs
            rcases List.mem_append.mp hs with hmem | hone
            · obtain ⟨c, _, r, hfr, hsr⟩ := seqStrings_ok_mem hb s hmem
              exact ihf (some c) r hfr s hsr
            · have hse : s = tabs d ++ (nodeAt t n).element ++ "\n" := by
                cases hone with
                | head => rfl
                | tail _ hcon => cases hcon
              rw [hse]
              exact node_line_form hv hd

end TraversalLemmas

section SubtreeCount

lemma nodeAt_ge {t : LinkedTree} {i : Nat} (hi : t.nodes.length ≤ i) :
    nodeAt t i = default :=
  getD_ge _ t.nodes i hi

lemma childL_ge {t : LinkedTree} {i : Nat} (hi : t.nodes.length ≤ i) :
    childL t i = [] := by
  unfold childL
  rw [nodeAt_ge hi]
  rfl

lemma childL_ensureChildren {t : LinkedTree} {n : Nat} (hn : n < t.nodes.length)
    (i : Nat) : childL (ensureChildren t n) i = childL t i := by
  by_cases hin : i = n
  · subst hin
    unfold childL
    rw [nodeAt_ensureChildren_self hn]
    rfl
  · unfold childL
    rw [nodeAt_ensureChildren_ne hin]

lemma childL_appendChild_self {t : LinkedTree} {n : Nat} (e : String)
    (hn : n < t.nodes.length) :
    childL (appendChild t n e) n = childL t n ++ [t.nodes.length] := by
  unfold childL
  rw [nodeAt_appendChild_self e hn]
  rfl

lemma childL_appendChild_old {t : LinkedTree} {n i : Nat} (e : String)
    (hin : i ≠ n) (hi : i < t.nodes.length) :
    childL (appendChild t n e) i = childL t i := by
  unfold childL
  rw [nodeAt_appendChild_old e hin hi]

lemma childL_appendChild_new {t : LinkedTree} {n : Nat} (e : String) :
    childL (appendChild t n e) t.nodes.length = [] := by
  unfold childL
  rw [nodeAt_appendChild_new]
  rfl

lemma wfk_new (tid : Nat) : WFk (newTree tid) := by
  refine ⟨?_, ?_, ?_⟩
  · intro i c hc
    exact absurd hc (List.not_mem_nil c)
  · intro j i hj
    simp [newTree] at hj
  · intro i
    exact List.nodup_nil

lemma wfk_add_root {t : LinkedTree} (hw : WFd t) (hk : WFk t) (e : String) :
    WFk (add_root t e).1 := by
  obtain ⟨h1, h2, h3, h4, h5⟩ := hw
  cases hr : t.rootIdx with
  | some r => simpa [add_root, hr] using hk
  | none =>
    have hnil := h2 hr
    have heq : (add_root t e).1 =
        { t with nodes := [Node.mk e none none], rootIdx := some 0, size := 1 } := by
      simp [add_root, hr, hnil]
    rw [heq]
    refine ⟨?_, ?_, ?_⟩
    · intro i c hc
      have : childL { t with nodes := [Node.mk e none none], rootIdx := some 0, size := 1 } i
          = [] := by
        unfold childL nodeAt
        cases i with
        | zero => rfl
        | succ j => cases j <;> rfl
      rw [this] at hc
      cases hc
    · intro j i hj hp
      have hj0 : j = 0 := by simpa using hj
      subst hj0
      have : (nodeAt { t with nodes := [Node.mk e none none], rootIdx := some 0, size := 1 }
          0).parent = none := rfl
      rw [this] at hp
      cases hp
    · intro i
      have : childL { t with nodes := [Node.mk e none none], rootIdx := some 0, size := 1 } i
          = [] := by
        unfold childL nodeAt
        cases i with
        | zero => rfl
        | succ j => cases j <;> rfl
      rw [this]
      exact List.nodup_nil

lemma wfk_ensureChildren {t : LinkedTree} (hk : WFk t) {n : Nat}
    (hn : n < t.nodes.length) : WFk (ensureChildren t n) := by
  obtain ⟨k1, k2, k3⟩ := hk
  refine ⟨?_, ?_, ?_⟩
  · intro i c hc
    rw [childL_ensureChildren hn] at hc
    obtain ⟨hcp, hci, hcl⟩ := k1 i c hc
    refine ⟨?_, hci, ?_⟩
    · rw [nodeAt_ensureChildren_parent hn]
      exact hcp
    · rw [ensureChildren_length]
      exact hcl
  · intro j i hj hp
    rw [ensureChildren_length] at hj
    rw [nodeAt_ensureChildren_parent hn] at hp
    rw [childL_ensureChildren hn]
    exact k2 j i hj hp
  · intro i
    rw [childL_ensureChildren hn]
    exact k3 i

lemma wfk_appendChild {t : LinkedTree} (hk : WFk t) {n : Nat}
    (hn : n < t.nodes.length) (e : String) : WFk (appendChild t n e) := by
  obtain ⟨k1, k2, k3⟩ := hk
  have hlen := appendChild_length t n e
  refine ⟨?_, ?_, ?_⟩
  · intro i c hc
    by_cases hin : i = n
    · subst hin
      rw [childL_appendChild_self e hn] at hc
      rcases List.mem_append.mp hc with hold | hnew
      · obtain ⟨hcp, hci, hcl⟩ := k1 i c hold
        refine ⟨?_, hci, ?_⟩
        · rw [nodeAt_appendChild_parent e hcl]
          exact hcp
        · rw [hlen]
          omega
      · have hc' : c = t.nodes.length := by
          cases hnew with
          | head => rfl
          | tail _ hcon => cases hcon
        subst hc'
        refine ⟨?_, hn, ?_⟩
        · rw [nodeAt_appendChild_new]
        · rw [hlen]
          omega
    · by_cases hilt : i < t.nodes.length
      · rw [childL_appendChild_old e hin hilt] at hc
        obtain ⟨hcp, hci, hcl⟩ := k1 i c hc
        refine ⟨?_, hci, ?_⟩
        · rw [nodeAt_appendChild_parent e hcl]
          exact hcp
        · rw [hlen]
          omega
      · by_cases hiend : i = t.nodes.length
        · subst hiend
          rw [childL_appendChild_new e] at hc
          cases hc
        · have : childL (appendChild t n e) i = [] := by
            apply childL_ge
            rw [hlen]
            omega
          rw [this] at hc
          cases hc
  · intro j i hj hp
    rw [hlen] at hj
    by_cases hjend : j = t.nodes.length
    · subst hjend
      rw [nodeAt_appendChild_new] at hp
      cases hp
      rw [childL_appendChild_self e hn]
      exact List.mem_append.mpr (Or.inr (List.mem_singleton.mpr rfl))
    · have hjlt : j < t.nodes.length := by omega
      rw [nodeAt_appendChild_parent e hjlt] at hp
      have hmem := k2 j i hjlt hp
      by_cases hin : i = n
      · subst hin
        rw [childL_appendChild_self e hn]
        exact List.mem_append.mpr (Or.inl hmem)
      · by_cases hilt : i < t.nodes.length
        · rw [childL_appendChild_old e hin hilt]
          exact hmem
        · have : childL t i = [] := childL_ge (by omega)
          rw [this] at hmem
          cases hmem
  · intro i
    by_cases hin : i = n
    · subst hin
      rw [childL_appendChild_self e hn]
      have hlt : ∀ c ∈ childL t i, c < t.nodes.length := fun c hc => (k1 i c hc).2.2
      have hnotin : t.nodes.length ∉ childL t i := by
        intro hcon
        have := hlt _ hcon
        omega
      exact List.Nodup.append (k3 i) (List.nodup_singleton _)
        (by
          intro a ha hb
          have : a = t.nodes.length := by
            cases hb with
            | head => rfl
            | tail _ hcon => cases hcon
          subst this
          exact hnotin ha)
    · by_cases hilt : i < t.nodes.length
      · rw [childL_appendChild_old e hin hilt]
        exact k3 i
      · by_cases hiend : i = t.nodes.length
        · subst hiend
          rw [childL_appendChild_new e]
          exact List.nodup_nil
        · rw [childL_ge (t := appendChild t n e) (by rw [hlen]; omega)]
          exact List.nodup_nil

lemma wfk_add_nonroot {t : LinkedTree} (_hw : WFd t) (hk : WFk t) (p : PVal) (e : String) :
    WFk (add_nonroot_node t p e).1 := by
  cases hv : validate t p with
  | error er => simpa [add_nonroot_node, hv] using hk
  | ok n =>
    obtain ⟨hp, hn, hnt⟩ := validate_ok_elim hv
    have hk1 : WFk (ensureChildren t n) := wfk_ensureChildren hk hn
    have hn1 : n < (ensureChildren t n).nodes.length := by
      rw [ensureChildren_length]
      exact hn
    cases hf : find_child_by_value (ensureChildren t n) p e with
    | error er => simpa [add_nonroot_node, hv, hf] using hk1
    | ok res =>
      cases res with
      | some q => simpa [add_nonroot_node, hv, hf] using hk1
      | none =>
        have := wfk_appendChild hk1 hn1 e
        simpa [add_nonroot_node, hv, hf] using this

lemma wfk_add_node {t : LinkedTree} (hw : WFd t) (hk : WFk t) (e : String) (p : PVal) :
    WFk (add_node t e p).1 := by
  cases p with
  | pnone => rw [add_node_pnone_fst]; exact wfk_add_root hw hk e
  | pfalse => rw [add_node_pfalse_fst]; exact wfk_add_nonroot hw hk .pfalse e
  | ppos q => rw [add_node_ppos_fst]; exact wfk_add_nonroot hw hk (.ppos q) e

theorem reachable_wfk {t : LinkedTree} (h : Reachable t) : WFk t := by
  induction h with
  | new tid => exact wfk_new tid
  | root t e hsub ih => exact wfk_add_root (reachable_wfd hsub) ih e
  | nonroot t p e hsub ih => exact wfk_add_nonroot (reachable_wfd hsub) ih p e
  | node t e p hsub ih => exact wfk_add_node (reachable_wfd hsub) ih e p

lemma parent_some_lt_len {t : LinkedTree} {j k : Nat}
    (h : (nodeAt t j).parent = some k) : j < t.nodes.length := by
  by_cases hj : j < t.nodes.length
  · exact hj
  · rw [nodeAt_ge (by omega)] at h
    cases h

lemma desc_le {t : LinkedTree} (hw : WFd t) {i j : Nat} (h : DescP t i j) : i ≤ j := by
  induction h with
  | refl => exact Nat.le_refl i
  | up j k hpar _ ih =>
    have hjlt := parent_some_lt_len hpar
    have := hw.2.2.2.2 j k hjlt hpar
    omega

lemma desc_split {t : LinkedTree} (_hw : WFd t) (hk : WFk t) {i j : Nat}
    (h : DescP t i j) (hne : j ≠ i) : ∃ c ∈ childL t i, DescP t c j := by
  induction h with
  | refl => exact absurd rfl hne
  | up j k hpar hdesc ih =>
    by_cases hki : k = i
    · subst hki
      exact ⟨j, hk.2.1 j k (parent_some_lt_len hpar) hpar, DescP.refl⟩
    · obtain ⟨c, hc, hdc⟩ := ih hki
      exact ⟨c, hc, DescP.up j k hpar hdc⟩

lemma desc_of_child {t : LinkedTree} (hk : WFk t) {i c j : Nat}
    (hc : c ∈ childL t i) (h : DescP t c j) : DescP t i j := by
  induction h with
  | refl => exact DescP.up c i (hk.1 i c hc).1 DescP.refl
  | up j k hpar _ ih => exact DescP.up j k hpar ih

lemma desc_linear {t : LinkedTree} (hw : WFd t) {c c' : Nat} :
    ∀ j, DescP t c j → DescP t c' j → DescP t c c' ∨ DescP t c' c := by
  intro j
  induction j using Nat.strong_induction_on with
  | _ j ih =>
    intro h1 h2
    cases h1 with
    | refl => exact Or.inr h2
    | up j k hpar hdk =>
      cases h2 with
      | refl => exact Or.inl (DescP.up _ _ hpar hdk)
      | up j k' hpar' hdk' =>
        have hkk : k = k' := by
          rw [hpar] at hpar'
          cases hpar'
          rfl
        subst hkk
        have hjlt := parent_some_lt_len hpar
        have hklt := hw.2.2.2.2 j k hjlt hpar
        exact ih k hklt hdk hdk'

lemma desc_root_all {t : LinkedTree} (hw : WFd t) {r : Nat} (hr : t.rootIdx = some r) :
    ∀ j, j < t.nodes.length → DescP t r j := by
  intro j
  induction j using Nat.strong_induction_on with
  | _ j ih =>
    intro hj
    by_cases hjr : j = r
    · subst hjr
      exact DescP.refl
    · have hpn : (nodeAt t j).parent ≠ none := by
        intro hcon
        have := (hw.2.2.2.1 j hj).mp hcon
        rw [hr] at this
        cases this
        exact hjr rfl
      obtain ⟨k, hkp⟩ : ∃ k, (nodeAt t j).parent = some k := by
        cases hh : (nodeAt t j).parent with
        | none => exact absurd hh hpn
        | some k => exact ⟨k, rfl⟩
      have hklt := hw.2.2.2.2 j k hj hkp
      exact DescP.up j k hkp (ih k hklt (by omega))

open scoped Classical in
/-- The subtree of a live node splits as the node itself plus the disjoint
subtrees of its children. -/
lemma desc_card_children (t : LinkedTree) (hw : WFd t) (hk : WFk t) {i : Nat}
    (hi : i < t.nodes.length) :
    (Finset.filter (fun j => DescP t i j) (Finset.range t.nodes.length)).card =
      1 + ((childL t i).map
        (fun c => (Finset.filter (fun j => DescP t c j)
          (Finset.range t.nodes.length)).card)).sum := by
  classical
  have hset : Finset.filter (fun j => DescP t i j) (Finset.range t.nodes.length) =
      insert i ((childL t i).toFinset.biUnion
        (fun c => Finset.filter (fun j => DescP t c j) (Finset.range t.nodes.length))) := by
    ext j
    simp only [Finset.mem_filter, Finset.mem_range, Finset.mem_insert, Finset.mem_biUnion,
      List.mem_toFinset]
    constructor
    · rintro ⟨hjlt, hdesc⟩
      by_cases hji : j = i
      · exact Or.inl hji
      · obtain ⟨c, hc, hdc⟩ := desc_split hw hk hdesc hji
        exact Or.inr ⟨c, hc, hjlt, hdc⟩
    · rintro (hji | ⟨c, hc, hjlt, hdc⟩)
      · subst hji
        exact ⟨hi, DescP.refl⟩
      · exact ⟨hjlt, desc_of_child hk hc hdc⟩
  have hnotmem : i ∉ (childL t i).toFinset.biUnion
      (fun c => Finset.filter (fun j => DescP t c j) (Finset.range t.nodes.length)) := by
    intro hcon
    simp only [Finset.mem_biUnion, Finset.mem_filter, List.mem_toFinset] at hcon
    obtain ⟨c, hc, _, hdc⟩ := hcon
    have hle := desc_le hw hdc
    have := (hk.1 i c hc).2.1
    omega
  have hdisj : ∀ c ∈ (childL t i).toFinset, ∀ c' ∈ (childL t i).toFinset, c ≠ c' →
      Disjoint (Finset.filter (fun j => DescP t c j) (Finset.range t.nodes.length))
        (Finset.filter (fun j => DescP t c' j) (Finset.range t.nodes.length)) := by
    intro c hc c' hc' hne
    rw [List.mem_toFinset] at hc hc'
    rw [Finset.disjoint_left]
    intro j hj hj'
    simp only [Finset.mem_filter] at hj hj'
    have hlin := desc_linear hw j hj.2 hj'.2
    have hcontra : ∀ a b : Nat, a ∈ childL t i → b ∈ childL t i → DescP t a b → a = b := by
      intro a b ha hb hab
      cases hab with
      | refl => rfl
      | up b k hpar hdk =>
        have hpi : (nodeAt t b).parent = some i := (hk.1 i b hb).1
        rw [hpar] at hpi
        cases hpi
        have hle := desc_le hw hdk
        have := (hk.1 i a ha).2.1
        omega
    rcases hlin with hcc | hcc
    · exact hne (hcontra c c' hc hc' hcc)
    · exact hne ((hcontra c' c hc' hc hcc).symm)
  rw [hset, Finset.card_insert_of_not_mem hnotmem, Finset.card_biUnion hdisj]
  rw [List.sum_toFinset _ (hk.2.2 i)]
  omega

lemma wfd_validate_at {t : LinkedTree} (hw : WFd t) {i : Nat} (hi : i < t.nodes.length) :
    validate t (.ppos ⟨t.tid, i⟩) = .ok i := by
  apply validate_ppos_ok rfl hi
  show (nodeAt t i).parent ≠ some i
  cases hpp : (nodeAt t i).parent with
  | none => intro hcon; cases hcon
  | some k =>
    have := hw.2.2.2.2 i k hi hpp
    intro hcon
    cases hcon
    omega

lemma seqStrings_sum {f : Option Position → Except Err (List String)} {g : Position → Nat} :
    ∀ cs : List Position, (∀ c ∈ cs, ∃ r, f (some c) = .ok r ∧ r.length = g c) →
      ∃ body, seqStrings f cs = .ok body ∧ body.length = (cs.map g).sum := by
  intro cs
  induction cs with
  | nil => intro _; exact ⟨[], rfl, rfl⟩
  | cons c0 rest ih =>
    intro h
    obtain ⟨r0, hr0, hl0⟩ := h c0 (List.mem_cons_self c0 rest)
    obtain ⟨body, hb, hbl⟩ := ih (fun c hc => h c (List.mem_cons_of_mem c0 hc))
    refine ⟨r0 ++ body, ?_, ?_⟩
    · simp only [seqStrings, hr0, hb]
    · simp [hl0, hbl]

open scoped Classical in
/-- Fuel-indexed preorder traversal from a live node succeeds and emits one
line per node of that node's subtree. -/
lemma preorder_count (t : LinkedTree) (hw : WFd t) (hk : WFk t) :
    ∀ m i, i < t.nodes.length → t.nodes.length - i ≤ m →
      ∀ fuel, t.nodes.length - i < fuel →
      ∃ l, traverse_preorder t fuel (some ⟨t.tid, i⟩) = .ok l ∧
        l.length =
          (Finset.filter (fun j => DescP t i j) (Finset.range t.nodes.length)).card := by
  intro m
  induction m with
  | zero =>
    intro i hi hm
    omega
  | succ m ih =>
    intro i hi hm fuel hfuel
    cases fuel with
    | zero => omega
    | succ F =>
      obtain ⟨l0, d0, _, hd0, _, _, _, _⟩ :=
        path_depth_spec t hw i hi (t.nodes.length + 1) (by omega) (t.nodes.length + 1)
          (by omega)
      have hdep : depth t (some ⟨t.tid, i⟩) = .ok d0 := hd0
      have hval : validateO t (some ⟨t.tid, i⟩) = .ok i := wfd_validate_at hw hi
      have hch : childrenO t (some ⟨t.tid, i⟩) =
          .ok ((childL t i).map (fun j => (⟨t.tid, j⟩ : Position))) :=
        children_ok_of_validate hval
      have hrec : ∀ c ∈ (childL t i).map (fun j => (⟨t.tid, j⟩ : Position)),
          ∃ r, traverse_preorder t F (some c) = .ok r ∧
            r.length = (fun c : Position =>
              (Finset.filter (fun j => DescP t c.node j)
                (Finset.range t.nodes.length)).card) c := by
        intro c hc
        obtain ⟨j0, hj0, rfl⟩ := List.mem_map.mp hc
        obtain ⟨_, hij0, hj0len⟩ := hk.1 i j0 hj0
        obtain ⟨r, hr, hrl⟩ := ih j0 hj0len (by omega) F (by omega)
        exact ⟨r, hr, hrl⟩
      obtain ⟨body, hbody, hbl⟩ := seqStrings_sum _ hrec
      refine ⟨(tabs d0 ++ (nodeAt t i).element ++ "\n") :: body, ?_, ?_⟩
      · rw [traverse_preorder_succ]
        simp only [hdep, hval, hch, hbody]
      · show body.length + 1 = _
        rw [desc_card_children t hw hk hi, hbl, List.map_map]
        have hcomp : ((fun c : Position =>
              (Finset.filter (fun j => DescP t c.node j)
                (Finset.range t.nodes.length)).card) ∘ (fun j => (⟨t.tid, j⟩ : Position))) =
            (fun c => (Finset.filter (fun j => DescP t c j)
              (Finset.range t.nodes.length)).card) := rfl
        rw [hcomp]
        omega

open scoped Classical in
/-- Fuel-indexed postorder traversal from a live node succeeds and emits one
line per node of that node's subtree. -/
lemma postorder_count (t : LinkedTree) (hw : WFd t) (hk : WFk t) :
    ∀ m i, i < t.nodes.length → t.nodes.length - i ≤ m →
      ∀ fuel, t.nodes.length - i < fuel →
      ∃ l, traverse_postorder t fuel (some ⟨t.tid, i⟩) = .ok l ∧
        l.length =
          (Finset.filter (fun j => DescP t i j) (Finset.range t.nodes.length)).card := by
  intro m
  induction m with
  | zero =>
    intro i hi hm
    omega
  | succ m ih =>
    intro i hi hm fuel hfuel
    cases fuel with
    | zero => omega
    | succ F =>
      obtain ⟨l0, d0, _, hd0, _, _, _, _⟩ :=
        path_depth_spec t hw i hi (t.nodes.length + 1) (by omega) (t.nodes.length + 1)
          (by omega)
      have hdep : depth t (some ⟨t.tid, i⟩) = .ok d0 := hd0
      have hval : validateO t (some ⟨t.tid, i⟩) = .ok i := wfd_validate_at hw hi
      have hch : childrenO t (some ⟨t.tid, i⟩) =
          .ok ((childL t i).map (fun j => (⟨t.tid, j⟩ : Position))) :=
        children_ok_of_validate hval
      have hrec : ∀ c ∈ (childL t i).map (fun j => (⟨t.tid, j⟩ : Position)),
          ∃ r, traverse_postorder t F (some c) = .ok r ∧
            r.length = (fun c : Position =>
              (Finset.filter (fun j => DescP t c.node j)
                (Finset.range t.nodes.length)).card) c := by
        intro c hc
        obtain ⟨j0, hj0, rfl⟩ := List.mem_map.mp hc
        obtain ⟨_, hij0, hj0len⟩ := hk.1 i j0 hj0
        obtain ⟨r, hr, hrl⟩ := ih j0 hj0len (by omega) F (by omega)
        exact ⟨r, hr, hrl⟩
      obtain ⟨body, hbody, hbl⟩ := seqStrings_sum _ hrec
      refine ⟨body ++ [tabs d0 ++ (nodeAt t i).element ++ "\n"], ?_, ?_⟩
      · rw [traverse_postorder_succ]
        simp only [hdep, hval, hch, hbody]
      · rw [List.length_append]
        show body.length + 1 = _
        rw [desc_card_children t hw hk hi, hbl, List.map_map]
        have hcomp : ((fun c : Position =>
              (Finset.filter (fun j => DescP t c.node j)
                (Finset.range t.nodes.length)).card) ∘ (fun j => (⟨t.tid, j⟩ : Position))) =
            (fun c => (Finset.filter (fun j => DescP t c j)
              (Finset.range t.nodes.length)).card) := rfl
        rw [hcomp]
        omega

/-- On any tree the program can build that has a root, the preorder artifact
is produced and has exactly one line per node. -/
lemma all_nodes_pre_count (t : LinkedTree) (hre : Reachable t) {r : Nat}
    (hr : t.rootIdx = some r) :
    ∃ l, all_nodes t "pre" = .ok l ∧ l.length = t.size := by
  classical
  have hw := reachable_wfd hre
  have hk := reachable_wfk hre
  have hrlt : r < t.nodes.length := (hw.2.2.1 r hr).2
  obtain ⟨l, hl, hlen⟩ :=
    preorder_count t hw hk t.nodes.length r hrlt (by omega) (t.nodes.length + 1) (by omega)
  refine ⟨l, ?_, ?_⟩
  · show traverse_preorder t (t.nodes.length + 1) (rootPosn t) = .ok l
    unfold rootPosn
    rw [hr]
    exact hl
  · rw [hlen]
    have hfull : Finset.filter (fun j => DescP t r j) (Finset.range t.nodes.length) =
        Finset.range t.nodes.length := by
      apply Finset.filter_true_of_mem
      intro j hj
      exact desc_root_all hw hr j (Finset.mem_range.mp hj)
    rw [hfull, Finset.card_range]
    exact hw.1.symm

/-- On any tree the program can build that has a root, the postorder
artifact is produced and has exactly one line per node. -/
lemma all_nodes_post_count (t : LinkedTree) (hre : Reachable t) {r : Nat}
    (hr : t.rootIdx = some r) :
    ∃ l, all_nodes t "post" = .ok l ∧ l.length = t.size := by
  classical
  have hw := reachable_wfd hre
  have hk := reachable_wfk hre
  have hrlt : r < t.nodes.length := (hw.2.2.1 r hr).2
  obtain ⟨l, hl, hlen⟩ :=
    postorder_count t hw hk t.nodes.length r hrlt (by omega) (t.nodes.length + 1) (by omega)
  refine ⟨l, ?_, ?_⟩
  · show traverse_postorder t (t.nodes.length + 1) (rootPosn t) = .ok l
    unfold rootPosn
    rw [hr]
    exact hl
  · rw [hlen]
    have hfull : Finset.filter (fun j => DescP t r j) (Finset.range t.nodes.length) =
        Finset.range t.nodes.length := by
      apply Finset.filter_true_of_mem
      intro j hj
      exact desc_root_all hw hr j (Finset.mem_range.mp hj)
    rw [hfull, Finset.card_range]
    exact hw.1.symm

end SubtreeCount

/-- C1, counterexample.  On the input lines `A`, `A,B`, `A,B,C`, `C`, the
last label `C` does not match the root, the cursor (positioned at node `B`)
does have a child labelled `C` (node 2), yet after the step the cursor is the
`False` sentinel (the result of looking `C` up among the ROOT's children),
not the cursor's matching child — refuting "the cursor is set to that child
of the cursor". -/
theorem c1_cex :
    fill_tree ["A", "A,B", "A,B,C", "C"] =
      .inl (⟨0, [⟨"A", none, some [1]⟩, ⟨"B", some 0, some [2]⟩, ⟨"C", some 1, none⟩],
             some 0, 3⟩, .pfalse) ∧
    find_child_by_value
      (⟨0, [⟨"A", none, some [1]⟩, ⟨"B", some 0, some [2]⟩, ⟨"C", some 1, none⟩],
        some 0, 3⟩ : LinkedTree)
      (.ppos ⟨0, 1⟩) "C" = .ok (some ⟨0, 2⟩) ∧
    PVal.pfalse ≠ PVal.ppos ⟨0, 2⟩ :=
  ⟨rfl, rfl, by decide⟩

/-- C1 (amended).  In the label loop of `fill_tree`, for a label that does
not equal the root's element: if the cursor has a child with that label the
cursor is set to the result of looking the label up among the ROOT's
children (that root child if one exists, the `False` sentinel otherwise) and
the tree is unchanged; if the cursor has no such child, `add_node` runs with
the cursor as parent and the cursor is not advanced. -/
theorem c1_amended (t : LinkedTree) (cursor : PVal) (s : String) (n : Nat)
    (hv : validate t (pvalOfOpt (rootPosn t)) = .ok n)
    (hne : (nodeAt t n).element ≠ strip s) :
    (∀ q, find_child_by_value t cursor (strip s) = .ok (some q) →
       (∀ q', find_child_by_value t (pvalOfOpt (rootPosn t)) (strip s) = .ok (some q') →
          stepLabel t cursor s = .inl (t, .ppos q')) ∧
       (find_child_by_value t (pvalOfOpt (rootPosn t)) (strip s) = .ok none →
          stepLabel t cursor s = .inl (t, .pfalse))) ∧
    (find_child_by_value t cursor (strip s) = .ok none →
       ∀ t', add_node t (strip s) cursor = (t', none) →
         stepLabel t cursor s = .inl (t', cursor)) := by
  constructor
  · intro q hf
    constructor
    · intro q' hf'
      simp [stepLabel, hv, hne, hf, hf']
    · intro hf'
      simp [stepLabel, hv, hne, hf, hf']
  · intro hf t' ha
    simp [stepLabel, hv, hne, hf, ha]

/-- C1 witness: the amended behaviour at the concrete counterexample state. -/
theorem c1_amended_wit :
    validate
      (⟨0, [⟨"A", none, some [1]⟩, ⟨"B", some 0, some [2]⟩, ⟨"C", some 1, none⟩],
        some 0, 3⟩ : LinkedTree)
      (pvalOfOpt (rootPosn
        (⟨0, [⟨"A", none, some [1]⟩, ⟨"B", some 0, some [2]⟩, ⟨"C", some 1, none⟩],
          some 0, 3⟩ : LinkedTree))) = .ok 0 ∧
    stepLabel
      (⟨0, [⟨"A", none, some [1]⟩, ⟨"B", some 0, some [2]⟩, ⟨"C", some 1, none⟩],
        some 0, 3⟩ : LinkedTree)
      (.ppos ⟨0, 1⟩) "C" =
      .inl (⟨0, [⟨"A", none, some [1]⟩, ⟨"B", some 0, some [2]⟩, ⟨"C", some 1, none⟩],
             some 0, 3⟩, .pfalse) :=
  ⟨rfl,
   ((c1_amended
       (⟨0, [⟨"A", none, some [1]⟩, ⟨"B", some 0, some [2]⟩, ⟨"C", some 1, none⟩],
         some 0, 3⟩ : LinkedTree)
       (.ppos ⟨0, 1⟩) "C" 0 rfl (by decide)).1 ⟨0, 2⟩ rfl).2 rfl⟩

/-- C2, counterexample.  Zero input lines do produce an empty tree, but
`print_tree` on it raises `TypeError` from `_validate(None)` instead of
producing two empty artifacts. -/
theorem c2_cex :
    fill_tree [] = .inl (newTree 0, .pnone) ∧
    (newTree 0).size = 0 ∧ (newTree 0).rootIdx = none ∧
    print_tree (newTree 0) = .error (.typeError "p must be proper Position type") ∧
    (Except.error (Err.typeError "p must be proper Position type") ≠
      Except.ok (([], []) : List String × List String)) :=
  ⟨rfl, rfl, rfl, rfl, by simp⟩

/-- C2 (amended).  For zero input lines `fill_tree` yields the empty tree
(size 0, no root), and `print_tree` then fails with
`TypeError('p must be proper Position type')` when the traversal validates
the `None` root position, so neither output artifact's line sequence is
produced. -/
theorem c2_amended :
    fill_tree [] = .inl (newTree 0, .pnone) ∧
    is_empty (newTree 0) = true ∧ (newTree 0).rootIdx = none ∧
    all_nodes (newTree 0) "pre" = .error (.typeError "p must be proper Position type") ∧
    all_nodes (newTree 0) "post" = .error (.typeError "p must be proper Position type") ∧
    print_tree (newTree 0) = .error (.typeError "p must be proper Position type") :=
  ⟨rfl, rfl, rfl, rfl, rfl, rfl⟩

/-- C3, counterexample.  Adding `B` under the root twice: the first call
returns the new child's position, but the second call's bare `return` yields
Python `None`, not a position equal to the first call's result. -/
theorem c3_cex :
    add_nonroot_node exT1 (.ppos ⟨0, 0⟩) "B" = (exAB, .ok (some ⟨0, 1⟩)) ∧
    add_nonroot_node exAB (.ppos ⟨0, 0⟩) "B" = (exAB, .ok none) ∧
    ((Except.ok none : Except Err (Option Position)) ≠ Except.ok (some ⟨0, 1⟩)) :=
  ⟨rfl, rfl, by simp⟩

/-- C3 (amended).  Calling `_add_nonroot_node(p, e)` a second time with the
same `(p, e)` after a first call that created a child leaves the tree
exactly unchanged (hence size and `p`'s children unchanged), and the second
call returns Python `None` (the bare `return` of the found-branch), not a
position equal to the first call's result. -/
theorem c3_amended (t : LinkedTree) (p : PVal) (e : String) (t' : LinkedTree) (q : Position)
    (h : add_nonroot_node t p e = (t', .ok (some q))) :
    add_nonroot_node t' p e = (t', .ok none) := by
  cases hv : validate t p with
  | error er =>
    rw [anr_validate_err hv] at h
    cases h
  | ok n =>
    obtain ⟨hp, hn, hnt⟩ := validate_ok_elim hv
    cases hf : find_child_by_value (ensureChildren t n) p e with
    | error er =>
      rw [anr_find_err hv hf] at h
      cases h
    | ok res =>
      cases res with
      | some q0 =>
        rw [anr_found hv hf] at h
        cases h
      | none =>
        rw [anr_notfound hv hf] at h
        have ht' : t' = appendChild (ensureChildren t n) n e := by
          cases h
          rfl
        subst ht'
        have hn1 : n < (ensureChildren t n).nodes.length := by
          rw [ensureChildren_length]
          exact hn
        have htid1 : (ensureChildren t n).tid = t.tid := ensureChildren_tid t n
        have hpar1 : (nodeAt (ensureChildren t n) n).parent = (nodeAt t n).parent :=
          nodeAt_ensureChildren_parent hn n
        -- the first call validates p against the intermediate tree as well
        have hv1 : validate (ensureChildren t n) p = .ok n := by
          rw [hp]
          apply validate_ppos_ok
          · show t.tid = (ensureChildren t n).tid
            rw [htid1]
          · exact hn1
          · show (nodeAt (ensureChildren t n) n).parent ≠ some n
            rw [hpar1]
            exact hnt
        -- p stays valid in the appended tree
        have hlen2 : (appendChild (ensureChildren t n) n e).nodes.length =
            (ensureChildren t n).nodes.length + 1 := appendChild_length _ n e
        have hv2 : validate (appendChild (ensureChildren t n) n e) p = .ok n := by
          rw [hp]
          apply validate_ppos_ok
          · show t.tid = (appendChild (ensureChildren t n) n e).tid
            rw [appendChild_tid, htid1]
          · show n < (appendChild (ensureChildren t n) n e).nodes.length
            rw [hlen2]
            omega
          · show (nodeAt (appendChild (ensureChildren t n) n e) n).parent ≠ some n
            rw [nodeAt_appendChild_parent e hn1, hpar1]
            exact hnt
        -- node n's children list in the appended tree
        have hchild2 : nodeAt (appendChild (ensureChildren t n) n e) n =
            { nodeAt (ensureChildren t n) n with
                children := some (((nodeAt (ensureChildren t n) n).children.getD []) ++
                  [(ensureChildren t n).nodes.length]) } :=
          nodeAt_appendChild_self e hn1
        -- the appended tree already has a children list at n
        have hensure2 : ensureChildren (appendChild (ensureChildren t n) n e) n =
            appendChild (ensureChildren t n) n e := by
          apply ensureChildren_noop
          rw [hchild2]
          intro hcon
          cases hcon
        -- every pre-existing child of n skips: none of them carries element e
        have hskip : ∀ c ∈ (((nodeAt (ensureChildren t n) n).children.getD []).map
              (fun j => (⟨(ensureChildren t n).tid, j⟩ : Position))),
            validate (appendChild (ensureChildren t n) n e) (.ppos c) = .ok c.node ∧
            (nodeAt (appendChild (ensureChildren t n) n e) c.node).element ≠ e := by
          intro c hc
          have hall := findAux_ok_none_elim
            (by rw [← find_eq_findAux e hv1]; exact hf) c hc
          obtain ⟨hvc, hec⟩ := hall
          obtain ⟨hcq, hclt, hcnt⟩ := validate_ok_elim hvc
          have hcc : c.container = (ensureChildren t n).tid := by
            injection hcq with h3
            rw [h3]
          constructor
          · apply validate_ppos_ok
            · show c.container = (appendChild (ensureChildren t n) n e).tid
              rw [appendChild_tid]
              exact hcc
            · show c.node < (appendChild (ensureChildren t n) n e).nodes.length
              rw [hlen2]
              omega
            · rw [nodeAt_appendChild_parent e hclt]
              exact hcnt
          · rw [nodeAt_appendChild_element e hclt]
            exact hec
        -- the freshly appended node is found
        have hnewv : validate (appendChild (ensureChildren t n) n e)
            (.ppos ⟨(ensureChildren t n).tid, (ensureChildren t n).nodes.length⟩) =
            .ok (ensureChildren t n).nodes.length := by
          apply validate_ppos_ok
          · show (ensureChildren t n).tid = (appendChild (ensureChildren t n) n e).tid
            rw [appendChild_tid]
          · show (ensureChildren t n).nodes.length <
                (appendChild (ensureChildren t n) n e).nodes.length
            rw [hlen2]
            omega
          · show (nodeAt (appendChild (ensureChildren t n) n e)
                (ensureChildren t n).nodes.length).parent ≠ _
            rw [nodeAt_appendChild_new]
            intro hcon
            injection hcon with h4
            have h5 : n = (ensureChildren t n).nodes.length := h4
            omega
        have hnewe : (nodeAt (appendChild (ensureChildren t n) n e)
            (ensureChildren t n).nodes.length).element = e := by
          rw [nodeAt_appendChild_new]
        -- the scan over old children ++ [new child] finds the new child
        have hfind2 : find_child_by_value (appendChild (ensureChildren t n) n e) p e =
            .ok (some ⟨(ensureChildren t n).tid, (ensureChildren t n).nodes.length⟩) := by
          have hstart : find_child_by_value (appendChild (ensureChildren t n) n e) p e =
              findAux (appendChild (ensureChildren t n) n e) e
                ((((nodeAt (ensureChildren t n) n).children.getD []) ++
                    [(ensureChildren t n).nodes.length]).map
                  (fun j => (⟨(ensureChildren t n).tid, j⟩ : Position))) := by
            have := find_eq_findAux e hv2
            rw [this, hchild2]
            rfl
          rw [hstart, List.map_append]
          rw [findAux_skip hskip]
          exact findAux_single_found hnewv hnewe
        rw [anr_found hv2 (by rw [hensure2]; exact hfind2), hensure2]

/-- C3 witness: the amended idempotence at the concrete two-call example. -/
theorem c3_amended_wit :
    add_nonroot_node exT1 (.ppos ⟨0, 0⟩) "B" = (exAB, .ok (some ⟨0, 1⟩)) ∧
    add_nonroot_node exAB (.ppos ⟨0, 0⟩) "B" = (exAB, .ok none) :=
  ⟨rfl, c3_amended exT1 (.ppos ⟨0, 0⟩) "B" exAB ⟨0, 1⟩ rfl⟩

/-- C4 (confirmed).  With the tree still empty, the first line is taken
whole — stripped of surrounding whitespace, never split on commas — and
installed as the root (a one-node tree of size 1), after which the remaining
lines are processed. -/
theorem c4_first_line (l : String) (rest : List String) :
    fill_tree (l :: rest) =
      fillLines ⟨0, [Node.mk (strip l) none none], some 0, 1⟩ .pnone rest ∧
    (⟨0, [Node.mk (strip l) none none], some 0, 1⟩ : LinkedTree).rootIdx = some 0 ∧
    nodeAt (⟨0, [Node.mk (strip l) none none], some 0, 1⟩ : LinkedTree) 0 =
      Node.mk (strip l) none none ∧
    (⟨0, [Node.mk (strip l) none none], some 0, 1⟩ : LinkedTree).size = 1 :=
  ⟨rfl, rfl, rfl, rfl⟩

/-- C5 (confirmed).  Traversal ordering and line format: on the tree with
root `A` and root children `[B, C]` added in that order, preorder is exactly
`A`, TAB`B`, TAB`C` and postorder is exactly TAB`B`, TAB`C`, `A` (each line
newline-terminated); in general every line either traversal emits is a node
line `TAB × depth(node) + element + newline` of the traversed tree, and on
every rooted tree the program can build both traversals succeed with exactly
one line per node (their length equals the tree's size). -/
theorem c5_traversals :
    (all_nodes exABC "pre" = .ok ["A\n", "\tB\n", "\tC\n"] ∧
     all_nodes exABC "post" = .ok ["\tB\n", "\tC\n", "A\n"]) ∧
    (∀ (t : LinkedTree) fuel (p : Option Position) l,
       traverse_preorder t fuel p = .ok l → ∀ s ∈ l, lineIsNodeLine t s) ∧
    (∀ (t : LinkedTree) fuel (p : Option Position) l,
       traverse_postorder t fuel p = .ok l → ∀ s ∈ l, lineIsNodeLine t s) ∧
    (∀ (t : LinkedTree) (r : Nat), Reachable t → t.rootIdx = some r →
       (∃ l, all_nodes t "pre" = .ok l ∧ l.length = t.size) ∧
       (∃ l, all_nodes t "post" = .ok l ∧ l.length = t.size)) :=
  ⟨⟨rfl, rfl⟩,
   fun t fuel p l h => preorder_lines_form t fuel p l h,
   fun t fuel p l h => postorder_lines_form t fuel p l h,
   fun t _r hre hr => ⟨all_nodes_pre_count t hre hr, all_nodes_post_count t hre hr⟩⟩

/-- C5 witness: the general line-form clause instantiated at the concrete
example's preorder run. -/
theorem c5_traversals_wit :
    all_nodes exABC "pre" = .ok ["A\n", "\tB\n", "\tC\n"] ∧
    lineIsNodeLine exABC "\tB\n" ∧
    (∃ l, all_nodes exABC "pre" = .ok l ∧ l.length = exABC.size) := by
  have hre : Reachable exABC :=
    Reachable.nonroot exAB (.ppos ⟨0, 0⟩) "C"
      (Reachable.nonroot exT1 (.ppos ⟨0, 0⟩) "B"
        (Reachable.root (newTree 0) "A" (Reachable.new 0)))
  exact ⟨c5_traversals.1.1,
    c5_traversals.2.1 exABC 4 (rootPosn exABC) ["A\n", "\tB\n", "\tC\n"] rfl
      "\tB\n" (by simp),
    (c5_traversals.2.2.2 exABC 0 hre rfl).1⟩

/-- C6 (confirmed).  For a valid position `p` of a tree the program can
build, `get_path_to_root(p)` succeeds with a list of length `depth(p) + 1`
that starts at `p`, ends at the root position, and in which each consecutive
pair is related by `parent`. -/
theorem c6_path_to_root (t : LinkedTree) (p : Position) (n : Nat)
    (hre : Reachable t) (hv : validate t (.ppos p) = .ok n) :
    (get_path_to_root t p).isOk = true ∧ (depth t (some p)).isOk = true ∧
    ∀ l d, get_path_to_root t p = .ok l → depth t (some p) = .ok d →
      l.length = d + 1 ∧ l.head? = some (some p) ∧
      l.getLast? = some (rootPosn t) ∧
      List.Chain' (fun a b => parentO t a = .ok b) l := by
  have hw := reachable_wfd hre
  obtain ⟨hp, hn, _⟩ := validate_ok_elim hv
  have hpn : p = ⟨t.tid, n⟩ := by
    cases hp
    rfl
  subst hpn
  obtain ⟨l0, d0, hp0, hd0, hlen0, hhead0, hlast0, hchain0⟩ :=
    path_depth_spec t hw n hn (t.nodes.length + 1) (by omega) (t.nodes.length + 1)
      (by omega)
  have hpath : get_path_to_root t ⟨t.tid, n⟩ = .ok l0 := hp0
  have hdep : depth t (some ⟨t.tid, n⟩) = .ok d0 := hd0
  refine ⟨by rw [hpath]; rfl, by rw [hdep]; rfl, ?_⟩
  intro l d hl hd
  rw [hpath] at hl
  rw [hdep] at hd
  cases hl
  cases hd
  exact ⟨hlen0, hhead0, hlast0, hchain0⟩

/-- C6 witness: the path property at the child node of the two-node example
tree. -/
theorem c6_path_to_root_wit :
    validate exAB (.ppos ⟨0, 1⟩) = .ok 1 ∧
    ((get_path_to_root exAB ⟨0, 1⟩).isOk = true ∧
     (depth exAB (some ⟨0, 1⟩)).isOk = true ∧
     ∀ l d, get_path_to_root exAB ⟨0, 1⟩ = .ok l → depth exAB (some ⟨0, 1⟩) = .ok d →
       l.length = d + 1 ∧ l.head? = some (some ⟨0, 1⟩) ∧
       l.getLast? = some (rootPosn exAB) ∧
       List.Chain' (fun a b => parentO exAB a = .ok b) l) := by
  have hre : Reachable exAB :=
    Reachable.nonroot exT1 (.ppos ⟨0, 0⟩) "B" (Reachable.root (newTree 0) "A" (Reachable.new 0))
  exact ⟨rfl, c6_path_to_root exAB ⟨0, 1⟩ 1 hre rfl⟩

/-- C7 (confirmed).  `parent`, `num_children` and `children` reject every
invalid position with an exception rather than answering: `TypeError` when
the argument is not a Position (`None` or `False`), `ValueError` when the
position belongs to a different tree instance (in particular any position of
a tree A queried against a tree B), and `ValueError` when the referenced node
is tombstoned (its parent link points to itself). -/
theorem c7_invalid_positions :
    (∀ t : LinkedTree,
       parent t .pnone = .error (.typeError "p must be proper Position type") ∧
       num_children t .pnone = .error (.typeError "p must be proper Position type") ∧
       children t .pnone = .error (.typeError "p must be proper Position type") ∧
       parent t .pfalse = .error (.typeError "p must be proper Position type") ∧
       num_children t .pfalse = .error (.typeError "p must be proper Position type") ∧
       children t .pfalse = .error (.typeError "p must be proper Position type")) ∧
    (∀ (tA tB : LinkedTree) (q : Position), q.container = tA.tid → tA.tid ≠ tB.tid →
       parent tB (.ppos q) = .error (.valueError "p does not belong to this container") ∧
       num_children tB (.ppos q) = .error (.valueError "p does not belong to this container") ∧
       children tB (.ppos q) = .error (.valueError "p does not belong to this container")) ∧
    (∀ (t : LinkedTree) (q : Position) (nd : Node), q.container = t.tid →
       t.nodes.get? q.node = some nd → nd.parent = some q.node →
       parent t (.ppos q) = .error (.valueError "p is no longer valid") ∧
       num_children t (.ppos q) = .error (.valueError "p is no longer valid") ∧
       children t (.ppos q) = .error (.valueError "p is no longer valid")) := by
  refine ⟨?_, ?_, ?_⟩
  · intro t
    exact ⟨rfl, rfl, rfl, rfl, rfl, rfl⟩
  · intro tA tB q hqa hAB
    have hcond : ¬(q.container = tB.tid ∧ q.node < tB.nodes.length) := by
      intro hcon
      exact hAB (hqa ▸ hcon.1)
    have hval : validate tB (.ppos q) =
        .error (.valueError "p does not belong to this container") := by
      simp only [validate]
      rw [if_neg hcond]
    exact ⟨by simp [parent, hval], by simp [num_children, hval], by simp [children, hval]⟩
  · intro t q nd hqt hget hpar
    obtain ⟨hlt, hgetD⟩ := get?_some_lt (default : Node) hget
    have hcond : q.container = t.tid ∧ q.node < t.nodes.length := ⟨hqt, hlt⟩
    have htomb : (nodeAt t q.node).parent = some q.node := by
      show (t.nodes.getD q.node default).parent = some q.node
      rw [hgetD]
      exact hpar
    have hval : validate t (.ppos q) = .error (.valueError "p is no longer valid") := by
      simp only [validate]
      rw [if_pos hcond, if_pos htomb]
    exact ⟨by simp [parent, hval], by simp [num_children, hval], by simp [children, hval]⟩

/-- C7 witness: a position created by tree A (the two-node example tree,
identity 0) queried against a fresh tree B (identity 1) is rejected. -/
theorem c7_invalid_positions_wit :
    (⟨0, 0⟩ : Position).container = exAB.tid ∧ exAB.tid ≠ (newTree 1).tid ∧
    parent (newTree 1) (.ppos ⟨0, 0⟩) =
      .error (.valueError "p does not belong to this container") ∧
    parent (newTree 1) .pnone = .error (.typeError "p must be proper Position type") :=
  ⟨rfl, by decide,
   (c7_invalid_positions.2.1 exAB (newTree 1) ⟨0, 0⟩ rfl (by decide)).1,
   (c7_invalid_positions.1 (newTree 1)).1⟩

/-- C8 (confirmed).  `_add_root` raises `ValueError('Root exists')` and
leaves the tree unchanged when a root is present; on an empty tree it
creates the root node holding `e`, sets size to 1, and returns the root's
position. -/
theorem c8_add_root (t : LinkedTree) (e : String) :
    (t.rootIdx ≠ none → add_root t e = (t, .error (.valueError "Root exists"))) ∧
    (t.rootIdx = none →
       (add_root t e).2 = .ok ⟨t.tid, t.nodes.length⟩ ∧
       (add_root t e).1.size = 1 ∧
       (add_root t e).1.rootIdx = some t.nodes.length ∧
       nodeAt (add_root t e).1 t.nodes.length = Node.mk e none none ∧
       rootPosn (add_root t e).1 = some ⟨t.tid, t.nodes.length⟩) := by
  cases hr : t.rootIdx with
  | some r =>
    constructor
    · intro _
      simp [add_root, hr]
    · intro hcon
      cases hcon
  | none =>
    have heq : add_root t e =
        ({ t with nodes := t.nodes ++ [Node.mk e none none],
                  rootIdx := some t.nodes.length, size := 1 },
         .ok ⟨t.tid, t.nodes.length⟩) := by
      simp [add_root, hr]
    constructor
    · intro hcon
      exact absurd rfl hcon
    · intro _
      rw [heq]
      refine ⟨rfl, rfl, rfl, ?_, rfl⟩
      show ((t.nodes ++ [Node.mk e none none]).getD t.nodes.length default) = _
      exact getD_append_len _ _ _

/-- C8 witness: the failure branch on the one-node example tree and the
success branch on a fresh tree. -/
theorem c8_add_root_wit :
    add_root exT1 "Z" = (exT1, .error (.valueError "Root exists")) ∧
    (add_root (newTree 0) "R").2 = .ok ⟨0, 0⟩ ∧
    (add_root (newTree 0) "R").1.size = 1 ∧
    (add_root (newTree 0) "R").1.rootIdx = some 0 :=
  ⟨(c8_add_root exT1 "Z").1 (by decide),
   ((c8_add_root (newTree 0) "R").2 rfl).1,
   ((c8_add_root (newTree 0) "R").2 rfl).2.1,
   ((c8_add_root (newTree 0) "R").2 rfl).2.2.1⟩

/-- C9 (confirmed).  On every tree the program can construct — the fresh
tree and anything reachable from it by the mutating operations, the queries
being pure — size is zero exactly when the root is absent, and `is_empty`
is true exactly when the root is absent. -/
theorem c9_empty_iff (t : LinkedTree) (hre : Reachable t) :
    (t.size = 0 ↔ t.rootIdx = none) ∧ (is_empty t = true ↔ t.rootIdx = none) := by
  obtain ⟨h1, h2, h3, _, _⟩ := reachable_wfd hre
  have hiff : t.size = 0 ↔ t.rootIdx = none := by
    constructor
    · intro hs
      cases hh : t.rootIdx with
      | none => rfl
      | some r =>
        have := (h3 r hh).2
        rw [← h1] at this
        omega
    · intro hh
      rw [h1, h2 hh]
      rfl
  refine ⟨hiff, ?_⟩
  rw [← hiff]
  unfold is_empty
  exact Nat.beq_eq_true_eq t.size 0 ▸ Iff.rfl

/-- C9 witness: the invariant at the two-node example tree. -/
theorem c9_empty_iff_wit :
    Reachable exAB ∧
    ((exAB.size = 0 ↔ exAB.rootIdx = none) ∧
     (is_empty exAB = true ↔ exAB.rootIdx = none)) := by
  have hre : Reachable exAB :=
    Reachable.nonroot exT1 (.ppos ⟨0, 0⟩) "B" (Reachable.root (newTree 0) "A" (Reachable.new 0))
  exact ⟨hre, c9_empty_iff exAB hre⟩

/-- C10 (confirmed).  On the two-line input `X`, `A,B` — whose second line's
first trimmed label `A` differs from the root element `X` — `fill_tree`
calls `find_child_by_value` with the never-assigned cursor `None`, and
construction aborts with the position-validation `TypeError` after having
built only the root. -/
theorem c10_unset_cursor :
    find_child_by_value (⟨0, [⟨"X", none, none⟩], some 0, 1⟩ : LinkedTree) .pnone "A" =
      .error (.typeError "p must be proper Position type") ∧
    fill_tree ["X", "A,B"] =
      .inr (⟨0, [⟨"X", none, none⟩], some 0, 1⟩,
            .typeError "p must be proper Position type") :=
  ⟨rfl, rfl⟩

end Categorize
